import Mathlib

/-!
Verification of the versioned, content-addressed object repository of
ioncore-python, centred on `ion/core/object/gpb_wrapper.py` (the `Wrapper`,
`ContainerWrapper`, `ScalarContainerWrapper` and `StructureElement` classes)
and, for one claim, `ion/integration/ais/common/metadata_cache.py`.

The development contains four shallow embeddings, each traceable line by
line to the source:

* the repository/commit model (`RepoModel` namespace): roots, link wrappers,
  the workspace dictionary, `_set_parents_modified`, `SetLink`,
  `__setattr__` and `RecurseCommit`;
* the message-tree bookkeeping model (`TreeModel` namespace):
  `DerivedWrappers`, `ContainerWrapper.__delitem__`, `ClearField` and
  `_clear_derived_message`;
* the invalidation model (`InvModel` namespace): `Invalidate` and the
  `__getattribute__` gate;
* the metadata-cache model (`CacheModel` namespace): Python attribute
  resolution for the class-level `__metadata` dictionary.

The repository class itself (`ion/core/object/repository.py`:
`new_id`, `get_linked_object`, `set_linked_object`, `_workspace`,
`_workspace_root`, `_hashed_elements`) and the `sha1bin` helper of
`object_utils.py` are not part of the provided sources; where an operation
of those modules is needed it is modelled from the specification and marked
`Modelled from the spec:` in its doc comment.  Invalidation gating is
modelled separately (`InvModel`); the repository model works in the
valid-wrapper regime where every `_invalid` guard of the source is a no-op.
-/

namespace RepoModel

/-- Identifier of a root wrapper instance (one entry of the repository
workspace; `Wrapper` objects that are the `_root` of their structure). -/
abbrev RootId := Nat

/-- Identifier of a link wrapper instance (a `Wrapper` around a GPB message
of the reserved Link type, living inside some root's composite tree). -/
abbrev LinkId := Nat

/-- The id space of `MyId` / workspace keys / link `key` fields: in the
source these are Python strings, either the decimal print of the
repository's object counter (uncommitted) or a 20-byte SHA-1 digest
(committed).  The two shapes are kept apart constructively. -/
inductive WId where
  | loc (n : Nat)
  | hash (h : List Nat)
deriving DecidableEq

/-- Is this id a content-hash id (as opposed to a transient local id)? -/
def WId.isHash : WId → Bool
  | .loc _ => false
  | .hash _ => true

/-- `TypeDescriptor`: `{object_id, version}` (net.ooici.core.type). -/
structure TypeDesc where
  object_id : Nat
  version : Nat
deriving DecidableEq

/-- `StructureElement` content: serialized value, type, key, leaf flag and
the `ChildLinks` key set collected during `RecurseCommit`. -/
structure SE where
  value : List Nat
  typ : TypeDesc
  key : WId
  isleaf : Bool
  childKeys : List WId
deriving DecidableEq

/-- State of one link wrapper: the root wrapper whose tree it lives in
(its `Root`), its GPB `key` field, its GPB `isleaf` field, and whether its
GPB type is the Link type (`ObjectType == LinkClassType`). -/
structure LinkNode where
  owner : RootId
  key : WId
  isleaf : Bool
  isLinkMsg : Bool
deriving DecidableEq

/-- Root-level state of one wrapper structure: the fields that
`gpb_wrapper.py` stores only on the root (`_myid`, `_modified`,
`_read_only`, `_child_links`, `_parent_links`) together with the record
content abstracted as a scalar-field store, the object type, the schema
field-name list (`_gpbFields`) and the name-resolved link fields. -/
structure RootNode where
  myId : WId
  modified : Bool
  readOnly : Bool
  childLinks : List LinkId
  parentLinks : List LinkId
  objType : TypeDesc
  payload : List (String × Nat)
  fieldNames : List String
  linkFields : List (String × LinkId)
deriving DecidableEq

/-- Serialization and hashing environment.  `sha1` is `sha1bin` of
`object_utils.py`; `serType` is `type.SerializeToString()`; `serValue` is
`Wrapper.SerializeToString()` abstracted as a function of the scalar
payload and the current child-link keys (which are embedded in the wire
bytes).  Modelled from the spec: `object_utils.py` is not among the
provided sources; only functionality (pure functions of their input) is
assumed, never any property of the digest. -/
structure Env where
  sha1 : List Nat → List Nat
  serType : TypeDesc → List Nat
  serValue : List (String × Nat) → List WId → List Nat

/-- Whole-repository state: the wrapper heaps, the workspace dictionary
(`Repository._workspace`), the local-id counter (`Repository.new_id`), the
`Repository._hashed_elements` memo table and the `_workspace_root`
sentinel. -/
structure St where
  node : RootId → Option RootNode
  link : LinkId → Option LinkNode
  workspace : WId → Option RootId
  counter : Nat
  hashedElements : WId → Option SE
  workspaceRoot : RootId

/-- Point update of the root heap. -/
def setNode (st : St) (r : RootId) (f : RootNode → RootNode) : St :=
  { st with node := fun x => if x = r then (st.node r).map f else st.node x }

/-- Point update of the link heap. -/
def setLinkNode (st : St) (l : LinkId) (f : LinkNode → LinkNode) : St :=
  { st with link := fun x => if x = l then (st.link l).map f else st.link x }

/-- Dictionary write `d[k] = v` on the workspace. -/
def wsSet (st : St) (k : WId) (r : RootId) : St :=
  { st with workspace := fun x => if x = k then some r else st.workspace x }

/-- Dictionary delete `del d[k]` on the workspace. -/
def wsDel (st : St) (k : WId) : St :=
  { st with workspace := fun x => if x = k then none else st.workspace x }

/-- `d.has_key(k)` on the workspace. -/
def wsHasKey (st : St) (k : WId) : Bool :=
  (st.workspace k).isSome

/-- `Wrapper.MyId` read (delegated to the root).  Junk default outside the
heap domain; the source would raise there. -/
def getMyId (st : St) (r : RootId) : WId :=
  match st.node r with
  | some n => n.myId
  | none => WId.loc 0

/-- `Wrapper.Modified` read (delegated to the root). -/
def getModified (st : St) (r : RootId) : Bool :=
  match st.node r with
  | some n => n.modified
  | none => false

/-- `Wrapper.ReadOnly` read (delegated to the root). -/
def getReadOnly (st : St) (r : RootId) : Bool :=
  match st.node r with
  | some n => n.readOnly
  | none => false

/-- Local (non-recursive) steps of `Wrapper._set_parents_modified`
(gpb_wrapper.py lines 713-723): set `Modified`, draw `repo.new_id()`
(modelled from the spec: the repository's monotonically increasing
counter), store the root under the new id in `repo._workspace`, delete the
workspace entry under the old `MyId` when present, and assign the new id
to `MyId`. -/
def spmLocal (st : St) (r : RootId) : St :=
  let st1 := setNode st r (fun x => { x with modified := true })
  let newId := WId.loc st1.counter
  let st2 := { st1 with counter := st1.counter + 1 }
  let st3 := wsSet st2 newId r
  let st4 := if wsHasKey st3 (getMyId st3 r) then wsDel st3 (getMyId st3 r) else st3
  setNode st4 r (fun x => { x with myId := newId })

mutual

/-- `Wrapper._set_parents_modified` (gpb_wrapper.py lines 699-737).
If the root is already `Modified` it returns at once.  Otherwise it runs
the local steps (`spmLocal`) and then either clears `ParentLinks` (when
the root is `repo._workspace_root` — the commit reference is not a child
of anything) or, for each parent link, writes `MyId` into the link's raw
GPB `key` field and recurses on the link's root.  Recursion is
fuel-indexed; exhausted fuel returns the state unchanged. -/
def set_parents_modified : Nat → St → RootId → St
  | 0, st, _ => st
  | fuel + 1, st, r =>
    match st.node r with
    | none => st
    | some n =>
      if n.modified then st
      else
        let st5 := spmLocal st r
        if r = st5.workspaceRoot then
          setNode st5 r (fun x => { x with parentLinks := [] })
        else
          spmFold fuel r n.parentLinks st5
termination_by f _ _ => (f, 0)

/-- The `for link in self.ParentLinks` loop of `_set_parents_modified`
(gpb_wrapper.py lines 732-737): write the marked root's current `MyId`
into each parent link's raw GPB `key` field, then recurse into the parent
link's root. -/
def spmFold : Nat → RootId → List LinkId → St → St
  | _, _, [], st => st
  | fuel, r, l :: ls, st =>
    spmFold fuel r ls
      (match st.link l with
       | none => st
       | some ln =>
         set_parents_modified fuel
           (setLinkNode st l (fun x => { x with key := getMyId st r })) ln.owner)
termination_by f _ ls _ => (f, ls.length + 1)

end

/-! Frame lemmas for the state-update helpers. -/

@[simp] theorem setNode_node_same (st : St) (r : RootId) (f : RootNode → RootNode) :
    (setNode st r f).node r = (st.node r).map f := by
  simp [setNode]

theorem setNode_node_other (st : St) (r x : RootId) (f : RootNode → RootNode)
    (h : x ≠ r) : (setNode st r f).node x = st.node x := by
  simp [setNode, h]

@[simp] theorem setNode_link (st : St) (r : RootId) (f : RootNode → RootNode) :
    (setNode st r f).link = st.link := rfl

@[simp] theorem setNode_workspace (st : St) (r : RootId) (f : RootNode → RootNode) :
    (setNode st r f).workspace = st.workspace := rfl

@[simp] theorem setNode_counter (st : St) (r : RootId) (f : RootNode → RootNode) :
    (setNode st r f).counter = st.counter := rfl

@[simp] theorem setNode_workspaceRoot (st : St) (r : RootId) (f : RootNode → RootNode) :
    (setNode st r f).workspaceRoot = st.workspaceRoot := rfl

@[simp] theorem setNode_hashedElements (st : St) (r : RootId) (f : RootNode → RootNode) :
    (setNode st r f).hashedElements = st.hashedElements := rfl

@[simp] theorem setLinkNode_node (st : St) (l : LinkId) (f : LinkNode → LinkNode) :
    (setLinkNode st l f).node = st.node := rfl

@[simp] theorem setLinkNode_link_same (st : St) (l : LinkId) (f : LinkNode → LinkNode) :
    (setLinkNode st l f).link l = (st.link l).map f := by
  simp [setLinkNode]

theorem setLinkNode_link_other (st : St) (l x : LinkId) (f : LinkNode → LinkNode)
    (h : x ≠ l) : (setLinkNode st l f).link x = st.link x := by
  simp [setLinkNode, h]

@[simp] theorem setLinkNode_workspace (st : St) (l : LinkId) (f : LinkNode → LinkNode) :
    (setLinkNode st l f).workspace = st.workspace := rfl

@[simp] theorem setLinkNode_counter (st : St) (l : LinkId) (f : LinkNode → LinkNode) :
    (setLinkNode st l f).counter = st.counter := rfl

@[simp] theorem setLinkNode_workspaceRoot (st : St) (l : LinkId) (f : LinkNode → LinkNode) :
    (setLinkNode st l f).workspaceRoot = st.workspaceRoot := rfl

@[simp] theorem wsSet_node (st : St) (k : WId) (r : RootId) :
    (wsSet st k r).node = st.node := rfl

@[simp] theorem wsSet_link (st : St) (k : WId) (r : RootId) :
    (wsSet st k r).link = st.link := rfl

@[simp] theorem wsSet_counter (st : St) (k : WId) (r : RootId) :
    (wsSet st k r).counter = st.counter := rfl

@[simp] theorem wsSet_workspace_same (st : St) (k : WId) (r : RootId) :
    (wsSet st k r).workspace k = some r := by
  simp [wsSet]

theorem wsSet_workspace_other (st : St) (k x : WId) (r : RootId) (h : x ≠ k) :
    (wsSet st k r).workspace x = st.workspace x := by
  simp [wsSet, h]

@[simp] theorem wsDel_node (st : St) (k : WId) : (wsDel st k).node = st.node := rfl

@[simp] theorem wsDel_link (st : St) (k : WId) : (wsDel st k).link = st.link := rfl

@[simp] theorem wsDel_counter (st : St) (k : WId) : (wsDel st k).counter = st.counter := rfl

@[simp] theorem wsDel_workspace_same (st : St) (k : WId) :
    (wsDel st k).workspace k = none := by
  simp [wsDel]

theorem wsDel_workspace_other (st : St) (k x : WId) (h : x ≠ k) :
    (wsDel st k).workspace x = st.workspace x := by
  simp [wsDel, h]

/-- Invariant preservation through `List.foldl`. -/
theorem foldl_pres {α σ : Type _} (P : σ → Prop) (f : σ → α → σ)
    (l : List α) (s : σ) (hs : P s) (hf : ∀ t a, a ∈ l → P t → P (f t a)) :
    P (l.foldl f s) := by
  induction l generalizing s with
  | nil => exact hs
  | cons a tl ih =>
    exact ih (f s a) (hf s a (by simp) hs) (fun t b hb => hf t b (by simp [hb]))

/-! Frame lemmas for `spmLocal`. -/

@[simp] theorem spmLocal_link (st : St) (r : RootId) :
    (spmLocal st r).link = st.link := by
  unfold spmLocal; dsimp only; split <;> rfl

@[simp] theorem spmLocal_counter (st : St) (r : RootId) :
    (spmLocal st r).counter = st.counter + 1 := by
  unfold spmLocal; dsimp only; split <;> rfl

@[simp] theorem spmLocal_workspaceRoot (st : St) (r : RootId) :
    (spmLocal st r).workspaceRoot = st.workspaceRoot := by
  unfold spmLocal; dsimp only; split <;> rfl

@[simp] theorem spmLocal_hashedElements (st : St) (r : RootId) :
    (spmLocal st r).hashedElements = st.hashedElements := by
  unfold spmLocal; dsimp only; split <;> rfl

theorem spmLocal_node_other (st : St) (r x : RootId) (h : x ≠ r) :
    (spmLocal st r).node x = st.node x := by
  unfold spmLocal; dsimp only
  split <;> simp [setNode, h]

theorem spmLocal_node_same (st : St) (r : RootId) (n : RootNode)
    (hn : st.node r = some n) :
    (spmLocal st r).node r =
      some { n with modified := true, myId := WId.loc st.counter } := by
  unfold spmLocal; dsimp only
  split <;> simp [setNode, hn]

/-! Behaviour of `set_parents_modified`. -/

/-- Frame relation: everything `set_parents_modified` can never do.  It
never creates or deletes wrappers, never touches `childLinks`, `readOnly`,
the record payload, a link's owner or type, the hashed-elements table or
the workspace-root sentinel; it can only raise the counter, shrink
`parentLinks` sets, flip `modified` to true (never back), rewrite `myId`
and link `key` fields and edit the workspace — and a root whose `modified`
flag is already set is left exactly as it is. -/
structure FrameRel (st st' : St) : Prop where
  he : st'.hashedElements = st.hashedElements
  wr : st'.workspaceRoot = st.workspaceRoot
  cnt : st.counter ≤ st'.counter
  nodeDom : ∀ x, (st'.node x).isSome = (st.node x).isSome
  nodeFields : ∀ x nx', st'.node x = some nx' → ∃ nx, st.node x = some nx ∧
    nx'.childLinks = nx.childLinks ∧ nx'.readOnly = nx.readOnly ∧
    nx'.objType = nx.objType ∧ nx'.payload = nx.payload ∧
    nx'.fieldNames = nx.fieldNames ∧ nx'.linkFields = nx.linkFields ∧
    (∀ l, l ∈ nx'.parentLinks → l ∈ nx.parentLinks) ∧
    (nx.modified = true → nx'.modified = true)
  linkFrame : ∀ x ln', st'.link x = some ln' → ∃ ln, st.link x = some ln ∧
    ln'.owner = ln.owner ∧ ln'.isLinkMsg = ln.isLinkMsg
  linkDom : ∀ x, (st'.link x).isSome = (st.link x).isSome

theorem FrameRel.frRefl (st : St) : FrameRel st st where
  he := rfl
  wr := rfl
  cnt := Nat.le_refl _
  nodeDom := fun _ => rfl
  nodeFields := fun _ nx' h => ⟨nx', h, rfl, rfl, rfl, rfl, rfl, rfl, fun _ hl => hl, fun h => h⟩
  linkFrame := fun _ ln' h => ⟨ln', h, rfl, rfl⟩
  linkDom := fun _ => rfl

theorem FrameRel.frTrans {s1 s2 s3 : St} (a : FrameRel s1 s2) (b : FrameRel s2 s3) :
    FrameRel s1 s3 where
  he := b.he.trans a.he
  wr := b.wr.trans a.wr
  cnt := a.cnt.trans b.cnt
  nodeDom := fun x => (b.nodeDom x).trans (a.nodeDom x)
  nodeFields := by
    intro x nx3 h3
    obtain ⟨nx2, h2, e1, e2, e3, e4, e5, e6, hsub, hmod⟩ := b.nodeFields x nx3 h3
    obtain ⟨nx1, h1, f1, f2, f3, f4, f5, f6, hsub', hmod'⟩ := a.nodeFields x nx2 h2
    exact ⟨nx1, h1, e1.trans f1, e2.trans f2, e3.trans f3, e4.trans f4, e5.trans f5,
      e6.trans f6, fun l hl => hsub' l (hsub l hl), fun h => hmod (hmod' h)⟩
  linkFrame := by
    intro x ln3 h3
    obtain ⟨ln2, h2, e1, e2⟩ := b.linkFrame x ln3 h3
    obtain ⟨ln1, h1, f1, f2⟩ := a.linkFrame x ln2 h2
    exact ⟨ln1, h1, e1.trans f1, e2.trans f2⟩
  linkDom := fun x => (b.linkDom x).trans (a.linkDom x)

theorem FrameRel.setLinkKey (st : St) (l : LinkId) (k : WId) :
    FrameRel st (setLinkNode st l (fun x => { x with key := k })) where
  he := rfl
  wr := rfl
  cnt := Nat.le_refl _
  nodeDom := fun _ => rfl
  nodeFields := fun _ nx' h => ⟨nx', h, rfl, rfl, rfl, rfl, rfl, rfl, fun _ hl => hl, fun h => h⟩
  linkFrame := by
    intro x ln' h
    by_cases hx : x = l
    · subst hx
      rw [setLinkNode_link_same] at h
      cases hln : st.link x with
      | none => rw [hln] at h; cases h
      | some ln =>
        rw [hln] at h
        cases h
        exact ⟨ln, rfl, rfl, rfl⟩
    · rw [setLinkNode_link_other st l x _ hx] at h
      exact ⟨ln', h, rfl, rfl⟩
  linkDom := by
    intro x
    by_cases hx : x = l
    · subst hx; rw [setLinkNode_link_same]; cases st.link x <;> rfl
    · rw [setLinkNode_link_other st l x _ hx]

theorem spm_noop_of_modified (f : Nat) (st : St) (r : RootId) (n : RootNode)
    (hn : st.node r = some n) (hm : n.modified = true) :
    set_parents_modified f st r = st := by
  cases f with
  | zero => simp [set_parents_modified]
  | succ f => simp [set_parents_modified, hn, hm]

theorem spm_noop_of_none (f : Nat) (st : St) (r : RootId)
    (hn : st.node r = none) :
    set_parents_modified f st r = st := by
  cases f with
  | zero => simp [set_parents_modified]
  | succ f => simp [set_parents_modified, hn]

theorem spmLocal_frame (st : St) (r : RootId) (n : RootNode)
    (hn : st.node r = some n) :
    FrameRel st (spmLocal st r) where
  he := by simp
  wr := by simp
  cnt := by simp
  nodeDom := by
    intro x
    by_cases hx : x = r
    · subst hx; rw [spmLocal_node_same st x n hn, hn]; rfl
    · rw [spmLocal_node_other st r x hx]
  nodeFields := by
    intro x nx' h
    by_cases hx : x = r
    · subst hx
      rw [spmLocal_node_same st x n hn] at h
      cases h
      exact ⟨n, hn, rfl, rfl, rfl, rfl, rfl, rfl, fun _ hl => hl, fun _ => rfl⟩
    · rw [spmLocal_node_other st r x hx] at h
      exact ⟨nx', h, rfl, rfl, rfl, rfl, rfl, rfl, fun _ hl => hl, fun h => h⟩
  linkFrame := by
    intro x ln' h
    rw [spmLocal_link] at h
    exact ⟨ln', h, rfl, rfl⟩
  linkDom := by intro x; rw [spmLocal_link]

theorem FrameRel.clearParents (st : St) (r : RootId) :
    FrameRel st (setNode st r (fun x => { x with parentLinks := [] })) where
  he := rfl
  wr := rfl
  cnt := Nat.le_refl _
  nodeDom := by
    intro x
    by_cases hx : x = r
    · subst hx; rw [setNode_node_same]; cases st.node x <;> rfl
    · rw [setNode_node_other st r x _ hx]
  nodeFields := by
    intro x nx' h
    by_cases hx : x = r
    · subst hx
      rw [setNode_node_same] at h
      cases hnx : st.node x with
      | none => rw [hnx] at h; cases h
      | some nx =>
        rw [hnx] at h; cases h
        exact ⟨nx, rfl, rfl, rfl, rfl, rfl, rfl, rfl, fun l hl => by simp at hl, fun h => h⟩
    · rw [setNode_node_other st r x _ hx] at h
      exact ⟨nx', h, rfl, rfl, rfl, rfl, rfl, rfl, fun _ hl => hl, fun h => h⟩
  linkFrame := fun _ ln' h => ⟨ln', h, rfl, rfl⟩
  linkDom := fun _ => rfl

/-! Unfolding lemmas for `set_parents_modified` / `spmFold`. -/

@[simp] theorem spm_zero (st : St) (r : RootId) :
    set_parents_modified 0 st r = st := by
  simp [set_parents_modified]

@[simp] theorem spmFold_nil (f : Nat) (r : RootId) (st : St) :
    spmFold f r [] st = st := by
  simp [spmFold]

theorem spmFold_cons (f : Nat) (r : RootId) (l : LinkId) (ls : List LinkId) (st : St) :
    spmFold f r (l :: ls) st = spmFold f r ls
      (match st.link l with
       | none => st
       | some ln =>
         set_parents_modified f
           (setLinkNode st l (fun x => { x with key := getMyId st r })) ln.owner) := by
  rw [spmFold]

theorem spm_succ_unmod (f : Nat) (st : St) (r : RootId) (n : RootNode)
    (hn : st.node r = some n) (hm : n.modified = false) :
    set_parents_modified (f + 1) st r =
      if r = st.workspaceRoot then
        setNode (spmLocal st r) r (fun x => { x with parentLinks := [] })
      else spmFold f r n.parentLinks (spmLocal st r) := by
  rw [set_parents_modified]
  simp [hn, hm]

/-- Joint frame property of `set_parents_modified` and its parent loop. -/
theorem spm_frame_all : ∀ f : Nat,
    (∀ st r, FrameRel st (set_parents_modified f st r)) ∧
    (∀ r ls st, FrameRel st (spmFold f r ls st)) := by
  intro f
  induction f with
  | zero =>
    constructor
    · intro st r; rw [spm_zero]; exact FrameRel.frRefl st
    · intro r ls
      induction ls with
      | nil => intro st; rw [spmFold_nil]; exact FrameRel.frRefl st
      | cons l tl ih =>
        intro st
        rw [spmFold_cons]
        cases hl : st.link l with
        | none => exact ih st
        | some ln =>
          dsimp only
          refine FrameRel.frTrans ?_ (ih _)
          rw [spm_zero]
          exact FrameRel.setLinkKey st l _
  | succ f ihf =>
    have hspm : ∀ st r, FrameRel st (set_parents_modified (f + 1) st r) := by
      intro st r
      cases hn : st.node r with
      | none => rw [spm_noop_of_none _ _ _ hn]; exact FrameRel.frRefl st
      | some n =>
        cases hm : n.modified with
        | true => rw [spm_noop_of_modified _ _ _ _ hn hm]; exact FrameRel.frRefl st
        | false =>
          rw [spm_succ_unmod f st r n hn hm]
          by_cases hr : r = st.workspaceRoot
          · rw [if_pos hr]
            exact FrameRel.frTrans (spmLocal_frame st r n hn) (FrameRel.clearParents _ r)
          · rw [if_neg hr]
            exact FrameRel.frTrans (spmLocal_frame st r n hn) (ihf.2 r n.parentLinks _)
    refine ⟨hspm, ?_⟩
    intro r ls
    induction ls with
    | nil => intro st; rw [spmFold_nil]; exact FrameRel.frRefl st
    | cons l tl ih =>
      intro st
      rw [spmFold_cons]
      cases hl : st.link l with
      | none => exact ih st
      | some ln =>
        dsimp only
        exact FrameRel.frTrans (FrameRel.frTrans (FrameRel.setLinkKey st l _) (hspm _ _)) (ih _)

/-- Frame property of a single `set_parents_modified` call. -/
theorem spm_frame (f : Nat) (st : St) (r : RootId) :
    FrameRel st (set_parents_modified f st r) :=
  (spm_frame_all f).1 st r

/-- A root whose `modified` flag is set is left entirely untouched by any
`set_parents_modified` call, on it or on any other root. -/
theorem spm_node_keep_all : ∀ f : Nat,
    (∀ st y x v, st.node x = some v → v.modified = true →
      (set_parents_modified f st y).node x = some v) ∧
    (∀ r ls st x v, st.node x = some v → v.modified = true →
      (spmFold f r ls st).node x = some v) := by
  intro f
  induction f with
  | zero =>
    constructor
    · intro st y x v hx _; rw [spm_zero]; exact hx
    · intro r ls
      induction ls with
      | nil => intro st x v hx _; rw [spmFold_nil]; exact hx
      | cons l tl ih =>
        intro st x v hx hv
        rw [spmFold_cons]
        cases hl : st.link l with
        | none => exact ih st x v hx hv
        | some ln =>
          dsimp only
          refine ih _ x v ?_ hv
          rw [spm_zero]
          simpa using hx
  | succ f ihf =>
    have hspm : ∀ st y x v, st.node x = some v → v.modified = true →
        (set_parents_modified (f + 1) st y).node x = some v := by
      intro st y x v hx hv
      cases hn : st.node y with
      | none => rw [spm_noop_of_none _ _ _ hn]; exact hx
      | some n =>
        cases hm : n.modified with
        | true => rw [spm_noop_of_modified _ _ _ _ hn hm]; exact hx
        | false =>
          have hxy : x ≠ y := by
            intro h; subst h; rw [hx] at hn; cases hn; rw [hv] at hm; cases hm
          rw [spm_succ_unmod f st y n hn hm]
          by_cases hr : y = st.workspaceRoot
          · rw [if_pos hr]
            rw [setNode_node_other _ _ _ _ hxy, spmLocal_node_other st y x hxy]
            exact hx
          · rw [if_neg hr]
            refine ihf.2 y n.parentLinks _ x v ?_ hv
            rw [spmLocal_node_other st y x hxy]
            exact hx
    refine ⟨hspm, ?_⟩
    intro r ls
    induction ls with
    | nil => intro st x v hx _; rw [spmFold_nil]; exact hx
    | cons l tl ih =>
      intro st x v hx hv
      rw [spmFold_cons]
      cases hl : st.link l with
      | none => exact ih st x v hx hv
      | some ln =>
        dsimp only
        refine ih _ x v (hspm _ _ x v ?_ hv) hv
        simpa using hx

/-- Single-call version of the keep lemma. -/
theorem spm_node_keep (f : Nat) (st : St) (y x : RootId) (v : RootNode)
    (hx : st.node x = some v) (hv : v.modified = true) :
    (set_parents_modified f st y).node x = some v :=
  (spm_node_keep_all f).1 st y x v hx hv

/-- A `modified = true` reading survives any `set_parents_modified`. -/
theorem spm_modified_mono (f : Nat) (st : St) (y x : RootId)
    (h : getModified st x = true) :
    getModified (set_parents_modified f st y) x = true := by
  unfold getModified at h ⊢
  cases hx : st.node x with
  | none => rw [hx] at h; cases h
  | some v =>
    rw [hx] at h
    rw [spm_node_keep f st y x v hx h]
    exact h

theorem getMyId_eq (st : St) (r : RootId) (n : RootNode) (hn : st.node r = some n) :
    getMyId st r = n.myId := by
  simp [getMyId, hn]

theorem FrameRel.getModified_mono {s s' : St} (fr : FrameRel s s') (x : RootId)
    (h : getModified s x = true) : getModified s' x = true := by
  unfold getModified at h ⊢
  cases hx : s.node x with
  | none => rw [hx] at h; cases h
  | some v =>
    rw [hx] at h
    have hdom : (s'.node x).isSome = true := by rw [fr.nodeDom, hx]; rfl
    cases hx' : s'.node x with
    | none => rw [hx'] at hdom; cases hdom
    | some v' =>
      obtain ⟨nx, hnx, _, _, _, _, _, _, _, hmod⟩ := fr.nodeFields x v' hx'
      rw [hnx] at hx; cases hx
      exact hmod h

/-! Workspace behaviour of `spmLocal`. -/

theorem spmLocal_getMyId3 (st : St) (r : RootId) (n : RootNode)
    (hn : st.node r = some n) :
    getMyId (wsSet { setNode st r (fun x => { x with modified := true }) with
      counter := (setNode st r (fun x => { x with modified := true })).counter + 1 }
      (WId.loc (setNode st r (fun x => { x with modified := true })).counter) r) r = n.myId := by
  simp [getMyId, wsSet, setNode, hn]

theorem spmLocal_workspace_other (st : St) (r : RootId) (n : RootNode)
    (hn : st.node r = some n) (k : WId)
    (h1 : k ≠ WId.loc st.counter) (h2 : k ≠ n.myId) :
    (spmLocal st r).workspace k = st.workspace k := by
  unfold spmLocal
  dsimp only
  rw [spmLocal_getMyId3 st r n hn]
  split
  · simp [wsDel, wsSet, h1, h2]
  · simp [wsSet, h1]

theorem spmLocal_workspace_new (st : St) (r : RootId) (n : RootNode)
    (hn : st.node r = some n) (hne : n.myId ≠ WId.loc st.counter) :
    (spmLocal st r).workspace (WId.loc st.counter) = some r := by
  unfold spmLocal
  dsimp only
  rw [spmLocal_getMyId3 st r n hn]
  have h2 : WId.loc st.counter ≠ n.myId := fun h => hne h.symm
  split
  · simp [wsDel, wsSet, h2]
  · simp [wsSet]

theorem spmLocal_workspace_old (st : St) (r : RootId) (n : RootNode)
    (hn : st.node r = some n) :
    (spmLocal st r).workspace n.myId = none := by
  unfold spmLocal
  dsimp only
  rw [spmLocal_getMyId3 st r n hn]
  by_cases hk : wsHasKey (wsSet { setNode st r (fun x => { x with modified := true }) with
      counter := (setNode st r (fun x => { x with modified := true })).counter + 1 }
      (WId.loc (setNode st r (fun x => { x with modified := true })).counter) r) n.myId
  · rw [if_pos hk]
    simp [wsDel]
  · rw [if_neg hk]
    unfold wsHasKey at hk
    simp only [setNode_counter] at hk
    cases hw : (wsSet { setNode st r (fun x => { x with modified := true }) with
        counter := st.counter + 1 }
        (WId.loc st.counter) r).workspace n.myId with
    | none => simpa [setNode] using hw
    | some z => rw [hw] at hk; cases hk rfl

/-! Counter-freshness and workspace-protection invariants. -/

/-- Counter freshness: no live root carries a local id at or above the
repository counter (local ids are drawn from the monotone counter and
never reused; spec section 4.3). -/
def CF (st : St) : Prop :=
  ∀ x nx, st.node x = some nx → ∀ c, st.counter ≤ c → nx.myId ≠ WId.loc c

/-- Every live root whose `MyId` is `k` is already marked modified (so a
`_set_parents_modified` run can never delete the workspace entry `k`). -/
def OMH (st : St) (k : WId) : Prop :=
  ∀ x nx, st.node x = some nx → nx.myId = k → nx.modified = true

theorem CF_spmLocal (st : St) (r : RootId) (n : RootNode)
    (hn : st.node r = some n) (hcf : CF st) : CF (spmLocal st r) := by
  intro x nx hx c hc
  rw [spmLocal_counter] at hc
  by_cases hxr : x = r
  · subst hxr
    rw [spmLocal_node_same st x n hn] at hx
    cases hx
    intro h
    cases h
    omega
  · rw [spmLocal_node_other st r x hxr] at hx
    exact hcf x nx hx c (by omega)

theorem OMH_spmLocal (st : St) (r : RootId) (n : RootNode) (k : WId)
    (hn : st.node r = some n) (homh : OMH st k) : OMH (spmLocal st r) k := by
  intro x nx hx hk
  by_cases hxr : x = r
  · subst hxr
    rw [spmLocal_node_same st x n hn] at hx
    cases hx
    rfl
  · rw [spmLocal_node_other st r x hxr] at hx
    exact homh x nx hx hk

/-- Joint protection lemma: under counter freshness, a workspace binding
at a local id `c₀` below the counter that only modified roots can carry is
never disturbed by `_set_parents_modified`, and the invariants survive. -/
theorem spm_protect_all : ∀ f : Nat,
    (∀ st y c₀, CF st → c₀ < st.counter → OMH st (WId.loc c₀) →
      (set_parents_modified f st y).workspace (WId.loc c₀) =
        st.workspace (WId.loc c₀) ∧
      CF (set_parents_modified f st y) ∧
      OMH (set_parents_modified f st y) (WId.loc c₀) ∧
      c₀ < (set_parents_modified f st y).counter) ∧
    (∀ r ls st c₀, CF st → c₀ < st.counter → OMH st (WId.loc c₀) →
      (spmFold f r ls st).workspace (WId.loc c₀) = st.workspace (WId.loc c₀) ∧
      CF (spmFold f r ls st) ∧
      OMH (spmFold f r ls st) (WId.loc c₀) ∧
      c₀ < (spmFold f r ls st).counter) := by
  have hsetlink : ∀ (st : St) l g c₀, CF st → OMH st (WId.loc c₀) →
      CF (setLinkNode st l g) ∧ OMH (setLinkNode st l g) (WId.loc c₀) := by
    intro st l g c₀ hcf homh
    constructor
    · intro x nx hx c hc
      exact hcf x nx hx c hc
    · intro x nx hx hk
      exact homh x nx hx hk
  intro f
  induction f with
  | zero =>
    constructor
    · intro st y c₀ hcf hlt homh
      rw [spm_zero]
      exact ⟨rfl, hcf, homh, hlt⟩
    · intro r ls
      induction ls with
      | nil =>
        intro st c₀ hcf hlt homh
        rw [spmFold_nil]
        exact ⟨rfl, hcf, homh, hlt⟩
      | cons l tl ih =>
        intro st c₀ hcf hlt homh
        rw [spmFold_cons]
        cases hl : st.link l with
        | none => exact ih st c₀ hcf hlt homh
        | some ln =>
          dsimp only
          rw [spm_zero]
          obtain ⟨h1, h2⟩ := hsetlink st l _ c₀ hcf homh
          exact ih _ c₀ h1 hlt h2
  | succ f ihf =>
    have hspm : ∀ st y c₀, CF st → c₀ < st.counter → OMH st (WId.loc c₀) →
        (set_parents_modified (f + 1) st y).workspace (WId.loc c₀) =
          st.workspace (WId.loc c₀) ∧
        CF (set_parents_modified (f + 1) st y) ∧
        OMH (set_parents_modified (f + 1) st y) (WId.loc c₀) ∧
        c₀ < (set_parents_modified (f + 1) st y).counter := by
      intro st y c₀ hcf hlt homh
      cases hn : st.node y with
      | none => rw [spm_noop_of_none _ _ _ hn]; exact ⟨rfl, hcf, homh, hlt⟩
      | some m =>
        cases hm : m.modified with
        | true => rw [spm_noop_of_modified _ _ _ _ hn hm]; exact ⟨rfl, hcf, homh, hlt⟩
        | false =>
          have hne : m.myId ≠ WId.loc c₀ := by
            intro h
            have := homh y m hn h
            rw [this] at hm; cases hm
          have hws5 : (spmLocal st y).workspace (WId.loc c₀) =
              st.workspace (WId.loc c₀) :=
            spmLocal_workspace_other st y m hn _ (by intro h; cases h; omega)
              (fun h => hne h.symm)
          have hcf5 := CF_spmLocal st y m hn hcf
          have homh5 := OMH_spmLocal st y m (WId.loc c₀) hn homh
          have hlt5 : c₀ < (spmLocal st y).counter := by
            rw [spmLocal_counter]; omega
          rw [spm_succ_unmod f st y m hn hm]
          by_cases hr : y = st.workspaceRoot
          · rw [if_pos hr]
            refine ⟨hws5, ?_, ?_, hlt5⟩
            · intro x nx hx c hc
              simp only [setNode_counter] at hc
              by_cases hxy : x = y
              · subst hxy
                rw [setNode_node_same] at hx
                cases h5 : (spmLocal st x).node x with
                | none => rw [h5] at hx; cases hx
                | some v =>
                  rw [h5] at hx
                  cases hx
                  exact hcf5 x v h5 c hc
              · rw [setNode_node_other _ _ _ _ hxy] at hx
                exact hcf5 x nx hx c hc
            · intro x nx hx hk
              by_cases hxy : x = y
              · subst hxy
                rw [setNode_node_same] at hx
                cases h5 : (spmLocal st x).node x with
                | none => rw [h5] at hx; cases hx
                | some v =>
                  rw [h5] at hx
                  cases hx
                  exact homh5 x v h5 hk
              · rw [setNode_node_other _ _ _ _ hxy] at hx
                exact homh5 x nx hx hk
          · rw [if_neg hr]
            obtain ⟨w1, w2, w3, w4⟩ := ihf.2 y m.parentLinks (spmLocal st y) c₀ hcf5 hlt5 homh5
            exact ⟨w1.trans hws5, w2, w3, w4⟩
    refine ⟨hspm, ?_⟩
    intro r ls
    induction ls with
    | nil =>
      intro st c₀ hcf hlt homh
      rw [spmFold_nil]
      exact ⟨rfl, hcf, homh, hlt⟩
    | cons l tl ih =>
      intro st c₀ hcf hlt homh
      rw [spmFold_cons]
      cases hl : st.link l with
      | none => exact ih st c₀ hcf hlt homh
      | some ln =>
        dsimp only
        obtain ⟨h1, h2⟩ := hsetlink st l _ c₀ hcf homh
        obtain ⟨s1, s2, s3, s4⟩ := hspm (setLinkNode st l _) ln.owner c₀ h1 hlt h2
        obtain ⟨t1, t2, t3, t4⟩ := ih _ c₀ s2 s4 s3
        exact ⟨t1.trans s1, t2, t3, t4⟩

/-- A workspace key that is absent and is no current or future local id
stays absent through `_set_parents_modified`. -/
theorem spm_ws_none_all : ∀ f : Nat,
    (∀ st y k, CF st → (∀ c, st.counter ≤ c → k ≠ WId.loc c) →
      st.workspace k = none →
      (set_parents_modified f st y).workspace k = none ∧
      CF (set_parents_modified f st y) ∧
      (∀ c, (set_parents_modified f st y).counter ≤ c → k ≠ WId.loc c)) ∧
    (∀ r ls st k, CF st → (∀ c, st.counter ≤ c → k ≠ WId.loc c) →
      st.workspace k = none →
      (spmFold f r ls st).workspace k = none ∧
      CF (spmFold f r ls st) ∧
      (∀ c, (spmFold f r ls st).counter ≤ c → k ≠ WId.loc c)) := by
  intro f
  induction f with
  | zero =>
    constructor
    · intro st y k hcf hk h0
      rw [spm_zero]
      exact ⟨h0, hcf, hk⟩
    · intro r ls
      induction ls with
      | nil =>
        intro st k hcf hk h0
        rw [spmFold_nil]
        exact ⟨h0, hcf, hk⟩
      | cons l tl ih =>
        intro st k hcf hk h0
        rw [spmFold_cons]
        cases hl : st.link l with
        | none => exact ih st k hcf hk h0
        | some ln =>
          dsimp only
          rw [spm_zero]
          exact ih _ k (fun x nx hx => hcf x nx hx) hk h0
  | succ f ihf =>
    have hspm : ∀ st y k, CF st → (∀ c, st.counter ≤ c → k ≠ WId.loc c) →
        st.workspace k = none →
        (set_parents_modified (f + 1) st y).workspace k = none ∧
        CF (set_parents_modified (f + 1) st y) ∧
        (∀ c, (set_parents_modified (f + 1) st y).counter ≤ c → k ≠ WId.loc c) := by
      intro st y k hcf hk h0
      cases hn : st.node y with
      | none => rw [spm_noop_of_none _ _ _ hn]; exact ⟨h0, hcf, hk⟩
      | some m =>
        cases hm : m.modified with
        | true => rw [spm_noop_of_modified _ _ _ _ hn hm]; exact ⟨h0, hcf, hk⟩
        | false =>
          have hknew : k ≠ WId.loc st.counter := hk st.counter (Nat.le_refl _)
          have hws5 : (spmLocal st y).workspace k = none := by
            by_cases hkm : k = m.myId
            · subst hkm
              exact spmLocal_workspace_old st y m hn
            · rw [spmLocal_workspace_other st y m hn k hknew hkm]
              exact h0
          have hcf5 := CF_spmLocal st y m hn hcf
          have hk5 : ∀ c, (spmLocal st y).counter ≤ c → k ≠ WId.loc c := by
            intro c hc
            rw [spmLocal_counter] at hc
            exact hk c (by omega)
          rw [spm_succ_unmod f st y m hn hm]
          by_cases hr : y = st.workspaceRoot
          · rw [if_pos hr]
            refine ⟨hws5, ?_, hk5⟩
            intro x nx hx c hc
            simp only [setNode_counter] at hc
            by_cases hxy : x = y
            · subst hxy
              rw [setNode_node_same] at hx
              cases h5 : (spmLocal st x).node x with
              | none => rw [h5] at hx; cases hx
              | some v =>
                rw [h5] at hx
                cases hx
                exact hcf5 x v h5 c hc
            · rw [setNode_node_other _ _ _ _ hxy] at hx
              exact hcf5 x nx hx c hc
          · rw [if_neg hr]
            exact ihf.2 y m.parentLinks (spmLocal st y) k hcf5 hk5 hws5
    refine ⟨hspm, ?_⟩
    intro r ls
    induction ls with
    | nil =>
      intro st k hcf hk h0
      rw [spmFold_nil]
      exact ⟨h0, hcf, hk⟩
    | cons l tl ih =>
      intro st k hcf hk h0
      rw [spmFold_cons]
      cases hl : st.link l with
      | none => exact ih st k hcf hk h0
      | some ln =>
        dsimp only
        obtain ⟨s1, s2, s3⟩ :=
          hspm (setLinkNode st l _) ln.owner k (fun x nx hx => hcf x nx hx) hk h0
        exact ih _ k s2 s3 s1

/-- Only modified roots hold link `l` in their `parentLinks`; then no
`_set_parents_modified` run ever rewrites `l`'s `key` field. -/
def HD (st : St) (l : LinkId) : Prop :=
  ∀ x nx, st.node x = some nx → l ∈ nx.parentLinks → nx.modified = true

theorem spm_key_stable_all : ∀ f : Nat,
    (∀ st y l, HD st l →
      (set_parents_modified f st y).link l = st.link l ∧
      HD (set_parents_modified f st y) l) ∧
    (∀ r ls st l, HD st l → (∀ a, a ∈ ls → a ≠ l) →
      (spmFold f r ls st).link l = st.link l ∧ HD (spmFold f r ls st) l) := by
  intro f
  induction f with
  | zero =>
    constructor
    · intro st y l hd
      rw [spm_zero]
      exact ⟨rfl, hd⟩
    · intro r ls
      induction ls with
      | nil =>
        intro st l hd _
        rw [spmFold_nil]
        exact ⟨rfl, hd⟩
      | cons a tl ih =>
        intro st l hd hne
        rw [spmFold_cons]
        cases hl : st.link a with
        | none => exact ih st l hd (fun b hb => hne b (by simp [hb]))
        | some ln =>
          dsimp only
          rw [spm_zero]
          have hal : a ≠ l := hne a (by simp)
          obtain ⟨u1, u2⟩ := ih (setLinkNode st a (fun x => { x with key := getMyId st r }))
            l (fun x nx hx => hd x nx hx) (fun b hb => hne b (by simp [hb]))
          refine ⟨u1.trans ?_, u2⟩
          exact setLinkNode_link_other st a l _ (fun h => hal h.symm)
  | succ f ihf =>
    have hspm : ∀ st y l, HD st l →
        (set_parents_modified (f + 1) st y).link l = st.link l ∧
        HD (set_parents_modified (f + 1) st y) l := by
      intro st y l hd
      cases hn : st.node y with
      | none => rw [spm_noop_of_none _ _ _ hn]; exact ⟨rfl, hd⟩
      | some m =>
        cases hm : m.modified with
        | true => rw [spm_noop_of_modified _ _ _ _ hn hm]; exact ⟨rfl, hd⟩
        | false =>
          have hnl : l ∉ m.parentLinks := by
            intro hmem
            have := hd y m hn hmem
            rw [this] at hm; cases hm
          have hd5 : HD (spmLocal st y) l := by
            intro x nx hx hmem
            by_cases hxy : x = y
            · subst hxy
              rw [spmLocal_node_same st x m hn] at hx
              cases hx
              rfl
            · rw [spmLocal_node_other st y x hxy] at hx
              exact hd x nx hx hmem
          rw [spm_succ_unmod f st y m hn hm]
          by_cases hr : y = st.workspaceRoot
          · rw [if_pos hr]
            refine ⟨by rw [setNode_link, spmLocal_link], ?_⟩
            intro x nx hx hmem
            by_cases hxy : x = y
            · subst hxy
              rw [setNode_node_same] at hx
              cases h5 : (spmLocal st x).node x with
              | none => rw [h5] at hx; cases hx
              | some v =>
                rw [h5] at hx
                cases hx
                exact hd5 x v h5 (by simp at hmem)
            · rw [setNode_node_other _ _ _ _ hxy] at hx
              exact hd5 x nx hx hmem
          · rw [if_neg hr]
            obtain ⟨u1, u2⟩ := ihf.2 y m.parentLinks (spmLocal st y) l hd5
              (fun a ha => by intro h; subst h; exact hnl ha)
            exact ⟨u1.trans (congrFun (spmLocal_link st y) l), u2⟩
    refine ⟨hspm, ?_⟩
    intro r ls
    induction ls with
    | nil =>
      intro st l hd _
      rw [spmFold_nil]
      exact ⟨rfl, hd⟩
    | cons a tl ih =>
      intro st l hd hne
      rw [spmFold_cons]
      cases hl : st.link a with
      | none => exact ih st l hd (fun b hb => hne b (by simp [hb]))
      | some ln =>
        dsimp only
        have hal : a ≠ l := hne a (by simp)
        have hd1 : HD (setLinkNode st a (fun x => { x with key := getMyId st r })) l :=
          fun x nx hx => hd x nx hx
        obtain ⟨s1, s2⟩ := hspm (setLinkNode st a (fun x => { x with key := getMyId st r }))
          ln.owner l hd1
        obtain ⟨t1, t2⟩ := ih _ l s2 (fun b hb => hne b (by simp [hb]))
        refine ⟨(t1.trans s1).trans ?_, t2⟩
        exact setLinkNode_link_other st a l _ (fun h => hal h.symm)

/-- Single-call key stability. -/
theorem spm_key_stable (f : Nat) (st : St) (y : RootId) (l : LinkId)
    (hd : HD st l) :
    (set_parents_modified f st y).link l = st.link l ∧
    HD (set_parents_modified f st y) l :=
  (spm_key_stable_all f).1 st y l hd

/-- A live root is `Modified` after `_set_parents_modified` runs on it
with at least one unit of fuel. -/
theorem spm_marks (f : Nat) (st : St) (y : RootId) (n : RootNode)
    (hn : st.node y = some n) :
    getModified (set_parents_modified (f + 1) st y) y = true := by
  cases hm : n.modified with
  | true =>
    rw [spm_noop_of_modified _ _ _ _ hn hm]
    simp [getModified, hn, hm]
  | false =>
    rw [spm_succ_unmod f st y n hn hm]
    by_cases hr : y = st.workspaceRoot
    · rw [if_pos hr]
      rw [getModified, setNode_node_same, spmLocal_node_same st y n hn]
      rfl
    · rw [if_neg hr]
      have hkeep := (spm_node_keep_all f).2 y n.parentLinks (spmLocal st y) y
        { n with modified := true, myId := WId.loc st.counter }
        (spmLocal_node_same st y n hn) rfl
      rw [getModified, hkeep]

/-- Once a parent link carries the freshly marked root's id in its `key`
field, the rest of the parent loop never changes it (the link belongs to
no other root's `parentLinks`, and the marked root itself stays put). -/
theorem spmFold_keepKey (f : Nat) (r : RootId) (a : LinkId) (v₀ : RootNode)
    (hv : v₀.modified = true) :
    ∀ (ls : List LinkId) (st : St),
      st.node r = some v₀ →
      (∀ x nx, st.node x = some nx → x ≠ r → a ∉ nx.parentLinks) →
      ∀ lna, st.link a = some lna → lna.key = v₀.myId →
      ∃ lna', (spmFold f r ls st).link a = some lna' ∧
        lna'.key = v₀.myId ∧ lna'.owner = lna.owner := by
  intro ls
  induction ls with
  | nil =>
    intro st hn _ lna hlink hkey
    rw [spmFold_nil]
    exact ⟨lna, hlink, hkey, rfl⟩
  | cons b tl ih =>
    intro st hn hda lna hlink hkey
    rw [spmFold_cons]
    cases hb : st.link b with
    | none => exact ih st hn hda lna hlink hkey
    | some lnb =>
      dsimp only
      set acc1 := setLinkNode st b (fun x => { x with key := getMyId st r }) with hacc1
      have hn1 : acc1.node r = some v₀ := hn
      have hda1 : ∀ x nx, acc1.node x = some nx → x ≠ r → a ∉ nx.parentLinks := hda
      have hlink1 : ∃ lna1, acc1.link a = some lna1 ∧
          lna1.key = v₀.myId ∧ lna1.owner = lna.owner := by
        by_cases hba : b = a
        · subst hba
          refine ⟨{ lna with key := getMyId st r }, ?_, ?_, rfl⟩
          · rw [hacc1, setLinkNode_link_same, hlink]; rfl
          · rw [getMyId_eq st r v₀ hn]
        · refine ⟨lna, ?_, hkey, rfl⟩
          rw [hacc1, setLinkNode_link_other st b a _ (fun h => hba h.symm)]
          exact hlink
      obtain ⟨lna1, hlna1, hk1, ho1⟩ := hlink1
      have hd1 : HD acc1 a := by
        intro x nx hx hmem
        by_cases hxr : x = r
        · subst hxr; rw [hn1] at hx; cases hx; exact hv
        · exact absurd hmem (hda1 x nx hx hxr)
      obtain ⟨k1, _⟩ := spm_key_stable f acc1 lnb.owner a hd1
      have hn2 : (set_parents_modified f acc1 lnb.owner).node r = some v₀ :=
        spm_node_keep f acc1 lnb.owner r v₀ hn1 hv
      have hfr2 := spm_frame f acc1 lnb.owner
      have hda2 : ∀ x nx, (set_parents_modified f acc1 lnb.owner).node x = some nx →
          x ≠ r → a ∉ nx.parentLinks := by
        intro x nx hx hxr hmem
        obtain ⟨nx1, hnx1, _, _, _, _, _, _, hsub, _⟩ := hfr2.nodeFields x nx hx
        exact hda1 x nx1 hnx1 hxr (hsub a hmem)
      have hlink2 : (set_parents_modified f acc1 lnb.owner).link a = some lna1 := by
        rw [k1]; exact hlna1
      obtain ⟨lna2, u1, u2, u3⟩ := ih (set_parents_modified f acc1 lnb.owner) hn2 hda2
        lna1 hlink2 hk1
      exact ⟨lna2, u1, u2, u3.trans ho1⟩

/-- The parent loop of `_set_parents_modified` writes the marked root's
new id into every parent link's `key` and leaves every parent root marked
modified. -/
theorem spmFold_marks (f : Nat) (r : RootId) (v₀ : RootNode)
    (hv : v₀.modified = true) :
    ∀ (ls : List LinkId) (st : St),
      st.node r = some v₀ →
      (∀ x nx, st.node x = some nx → x ≠ r → ∀ l, l ∈ ls → l ∉ nx.parentLinks) →
      (∀ l, l ∈ ls → ∃ ln, st.link l = some ln ∧ (st.node ln.owner).isSome = true) →
      ∀ l, l ∈ ls → ∃ ln, st.link l = some ln ∧
        (∃ ln', (spmFold (f + 1) r ls st).link l = some ln' ∧
          ln'.key = v₀.myId ∧ ln'.owner = ln.owner) ∧
        getModified (spmFold (f + 1) r ls st) ln.owner = true := by
  intro ls
  induction ls with
  | nil => intro st _ _ _ l hl; cases hl
  | cons b tl ih =>
    intro st hn hdisj hlive l hl
    obtain ⟨lnb, hlnb, hownb⟩ := hlive b (by simp)
    rw [spmFold_cons, hlnb]
    dsimp only
    set acc1 := setLinkNode st b (fun x => { x with key := getMyId st r }) with hacc1
    set acc2 := set_parents_modified (f + 1) acc1 lnb.owner with hacc2
    have hn1 : acc1.node r = some v₀ := hn
    have hn2 : acc2.node r = some v₀ := spm_node_keep (f + 1) acc1 lnb.owner r v₀ hn1 hv
    have hfr2 : FrameRel acc1 acc2 := spm_frame (f + 1) acc1 lnb.owner
    have hlink1 : ∀ l', l' ∈ b :: tl → ∃ ln ln1, st.link l' = some ln ∧
        acc1.link l' = some ln1 ∧ ln1.owner = ln.owner ∧
        (acc1.node ln.owner).isSome = true := by
      intro l' hl'
      obtain ⟨ln, hln, hown⟩ := hlive l' hl'
      by_cases hbl : b = l'
      · subst hbl
        refine ⟨ln, { ln with key := getMyId st r }, hln, ?_, rfl, hown⟩
        rw [hacc1, setLinkNode_link_same, hln]; rfl
      · refine ⟨ln, ln, hln, ?_, rfl, hown⟩
        rw [hacc1, setLinkNode_link_other st b l' _ (fun h => hbl h.symm)]
        exact hln
    have hdisj2 : ∀ x nx, acc2.node x = some nx → x ≠ r →
        ∀ l', l' ∈ b :: tl → l' ∉ nx.parentLinks := by
      intro x nx hx hxr l' hl' hmem
      obtain ⟨nx1, hnx1, _, _, _, _, _, _, hsub, _⟩ := hfr2.nodeFields x nx hx
      exact hdisj x nx1 hnx1 hxr l' hl' (hsub l' hmem)
    have hlive2 : ∀ l', l' ∈ tl → ∃ ln2, acc2.link l' = some ln2 ∧
        (acc2.node ln2.owner).isSome = true ∧
        ∀ ln, st.link l' = some ln → ln2.owner = ln.owner := by
      intro l' hl'
      obtain ⟨ln, ln1, hln, hln1, howner, hown1⟩ := hlink1 l' (by simp [hl'])
      have hdom : (acc2.link l').isSome = true := by
        rw [hfr2.linkDom, hln1]; rfl
      cases hln2 : acc2.link l' with
      | none => rw [hln2] at hdom; cases hdom
      | some ln2 =>
        obtain ⟨ln1x, hln1x, ho, _⟩ := hfr2.linkFrame l' ln2 hln2
        rw [hln1] at hln1x; cases hln1x
        refine ⟨ln2, rfl, ?_, ?_⟩
        · rw [hfr2.nodeDom, ho, howner]
          have : (acc1.node ln.owner).isSome = true := hown1
          exact this
        · intro lnz hlnz
          rw [hln] at hlnz; cases hlnz
          exact ho.trans howner
    by_cases hbl : l = b
    · subst hbl
      have hkey1 : acc1.link l = some { lnb with key := v₀.myId } := by
        rw [hacc1, setLinkNode_link_same, hlnb, getMyId_eq st r v₀ hn]; rfl
      have hd1 : HD acc1 l := by
        intro x nx hx hmem
        by_cases hxr : x = r
        · subst hxr; rw [hn1] at hx; cases hx; exact hv
        · exact absurd hmem (hdisj x nx hx hxr l (by simp))
      obtain ⟨k1, _⟩ := spm_key_stable (f + 1) acc1 lnb.owner l hd1
      have hkey2 : acc2.link l = some { lnb with key := v₀.myId } := by
        rw [hacc2, k1]; exact hkey1
      have hda2 : ∀ x nx, acc2.node x = some nx → x ≠ r → l ∉ nx.parentLinks := by
        intro x nx hx hxr
        exact hdisj2 x nx hx hxr l (by simp)
      obtain ⟨lnf, w1, w2, w3⟩ := spmFold_keepKey (f + 1) r l v₀ hv tl acc2 hn2 hda2
        { lnb with key := v₀.myId } hkey2 rfl
      have hmark2 : getModified acc2 lnb.owner = true := by
        have hown1 : (acc1.node lnb.owner).isSome = true := hownb
        cases hw : acc1.node lnb.owner with
        | none => rw [hw] at hown1; cases hown1
        | some w => exact spm_marks f acc1 lnb.owner w hw
      have hmarkf : getModified (spmFold (f + 1) r tl acc2) lnb.owner = true :=
        FrameRel.getModified_mono ((spm_frame_all (f + 1)).2 r tl acc2) lnb.owner hmark2
      exact ⟨lnb, hlnb, ⟨lnf, w1, w2, w3⟩, hmarkf⟩
    · have hltl : l ∈ tl := by
        cases hl with
        | head => exact absurd rfl hbl
        | tail _ h => exact h
      have hdisj2tl : ∀ x nx, acc2.node x = some nx → x ≠ r →
          ∀ l', l' ∈ tl → l' ∉ nx.parentLinks := by
        intro x nx hx hxr l' hl'
        exact hdisj2 x nx hx hxr l' (by simp [hl'])
      have hlive2tl : ∀ l', l' ∈ tl → ∃ ln, acc2.link l' = some ln ∧
          (acc2.node ln.owner).isSome = true := by
        intro l' hl'
        obtain ⟨ln2, h1, h2, _⟩ := hlive2 l' hl'
        exact ⟨ln2, h1, h2⟩
      obtain ⟨ln2, hln2, ⟨lnf, w1, w2, w3⟩, hmod⟩ := ih acc2 hn2 hdisj2tl hlive2tl l hltl
      obtain ⟨ln, hln, _⟩ := hlive l (by simp [hltl])
      obtain ⟨ln2x, h1x, _, h3x⟩ := hlive2 l hltl
      rw [hln2] at h1x; cases h1x
      have howner : ln2.owner = ln.owner := h3x ln hln
      refine ⟨ln, hln, ⟨lnf, w1, w2, w3.trans howner⟩, ?_⟩
      rw [howner] at hmod
      exact hmod

/-- C4: marking an unmodified node modified sets `Modified`, draws a fresh
local id, re-keys the workspace (new id bound to the root, old `MyId`
entry removed), assigns the new id to `MyId`, and then either — when the
root is the `workspace_root` sentinel — clears `ParentLinks` and visits no
parent, or writes the new id into each parent link's `key` field and
recursively marks each parent modified. -/
theorem C4_mark_modified_effects (f : Nat) (st : St) (r : RootId) (n : RootNode)
    (hn : st.node r = some n) (hm : n.modified = false) (hcf : CF st)
    (hdisj : ∀ x nx, st.node x = some nx → x ≠ r →
      ∀ l, l ∈ n.parentLinks → l ∉ nx.parentLinks)
    (hlive : ∀ l, l ∈ n.parentLinks → ∃ ln, st.link l = some ln ∧
      (st.node ln.owner).isSome = true) :
    (∃ v, (set_parents_modified (f + 2) st r).node r = some v ∧
      v.modified = true ∧ v.myId = WId.loc st.counter ∧
      v.childLinks = n.childLinks ∧
      v.parentLinks = (if r = st.workspaceRoot then [] else n.parentLinks)) ∧
    (set_parents_modified (f + 2) st r).workspace (WId.loc st.counter) = some r ∧
    (set_parents_modified (f + 2) st r).workspace n.myId = none ∧
    (r = st.workspaceRoot →
      set_parents_modified (f + 2) st r =
        setNode (spmLocal st r) r (fun x => { x with parentLinks := [] })) ∧
    (r ≠ st.workspaceRoot → ∀ l, l ∈ n.parentLinks → ∃ ln, st.link l = some ln ∧
      (∃ ln', (set_parents_modified (f + 2) st r).link l = some ln' ∧
        ln'.key = WId.loc st.counter ∧ ln'.owner = ln.owner) ∧
      getModified (set_parents_modified (f + 2) st r) ln.owner = true) := by
  have hnmy : ∀ c, st.counter ≤ c → n.myId ≠ WId.loc c := fun c hc => hcf r n hn c hc
  have hunf := spm_succ_unmod (f + 1) st r n hn hm
  have h5node := spmLocal_node_same st r n hn
  have h5new := spmLocal_workspace_new st r n hn (hnmy st.counter (Nat.le_refl _))
  have h5old := spmLocal_workspace_old st r n hn
  have hcf5 := CF_spmLocal st r n hn hcf
  have homh5 : OMH (spmLocal st r) (WId.loc st.counter) := by
    intro x nx hx hk
    by_cases hxr : x = r
    · subst hxr; rw [h5node] at hx; cases hx; rfl
    · rw [spmLocal_node_other st r x hxr] at hx
      exact absurd hk (hcf x nx hx st.counter (Nat.le_refl _))
  have hlt5 : st.counter < (spmLocal st r).counter := by
    rw [spmLocal_counter]; omega
  by_cases hr : r = st.workspaceRoot
  · rw [hunf, if_pos hr]
    refine ⟨⟨{ n with modified := true, myId := WId.loc st.counter, parentLinks := [] },
      ?_, rfl, rfl, rfl, ?_⟩, h5new, h5old, fun _ => rfl, fun hne => absurd hr hne⟩
    · rw [setNode_node_same, h5node]; rfl
    · rw [if_pos hr]
  · rw [hunf, if_neg hr]
    have hkeep := (spm_node_keep_all (f + 1)).2 r n.parentLinks (spmLocal st r) r
      { n with modified := true, myId := WId.loc st.counter } h5node rfl
    refine ⟨⟨{ n with modified := true, myId := WId.loc st.counter }, hkeep,
      rfl, rfl, rfl, by rw [if_neg hr]⟩, ?_, ?_, fun h => absurd h hr, ?_⟩
    · have := (spm_protect_all (f + 1)).2 r n.parentLinks (spmLocal st r) st.counter
        hcf5 hlt5 homh5
      rw [this.1, h5new]
    · have hkcond : ∀ c, (spmLocal st r).counter ≤ c → n.myId ≠ WId.loc c := by
        intro c hc
        rw [spmLocal_counter] at hc
        exact hnmy c (by omega)
      have := (spm_ws_none_all (f + 1)).2 r n.parentLinks (spmLocal st r) n.myId
        hcf5 hkcond h5old
      exact this.1
    · intro _ l hl
      have hdisj5 : ∀ x nx, (spmLocal st r).node x = some nx → x ≠ r →
          ∀ a, a ∈ n.parentLinks → a ∉ nx.parentLinks := by
        intro x nx hx hxr
        rw [spmLocal_node_other st r x hxr] at hx
        exact hdisj x nx hx hxr
      have hlive5 : ∀ a, a ∈ n.parentLinks → ∃ ln, (spmLocal st r).link a = some ln ∧
          ((spmLocal st r).node ln.owner).isSome = true := by
        intro a ha
        obtain ⟨ln, hln, hown⟩ := hlive a ha
        refine ⟨ln, by rw [spmLocal_link]; exact hln, ?_⟩
        by_cases hor : ln.owner = r
        · rw [hor, h5node]; rfl
        · rw [spmLocal_node_other st r _ hor]; exact hown
      obtain ⟨ln, hln, hkey, hmod⟩ := spmFold_marks f r
        { n with modified := true, myId := WId.loc st.counter } rfl n.parentLinks
        (spmLocal st r) h5node hdisj5 hlive5 l hl
      rw [spmLocal_link] at hln
      exact ⟨ln, hln, hkey, hmod⟩

/-- C5: `MarkModified` (`_set_parents_modified`) is idempotent: an
already-modified node returns immediately and the whole state — `MyId`,
workspace, `ParentLinks`, all ancestors — is untouched; in particular a
second back-to-back call is always a no-op, so `MyId` changes at most
once. -/
theorem C5_markModified_idempotent (f g : Nat) (st : St) (r : RootId) (n : RootNode)
    (hn : st.node r = some n) :
    (n.modified = true → set_parents_modified f st r = st) ∧
    set_parents_modified g (set_parents_modified (f + 1) st r) r =
      set_parents_modified (f + 1) st r := by
  constructor
  · intro hm
    exact spm_noop_of_modified f st r n hn hm
  · have hmod : getModified (set_parents_modified (f + 1) st r) r = true :=
      spm_marks f st r n hn
    unfold getModified at hmod
    cases hx : (set_parents_modified (f + 1) st r).node r with
    | none => rw [hx] at hmod; cases hmod
    | some v =>
      rw [hx] at hmod
      exact spm_noop_of_modified g _ r v hx hmod

/-! Concrete sample states for the witnesses. -/

/-- A lone, already-modified root. -/
def sampleNodeA : RootNode :=
  { myId := WId.loc 5, modified := true, readOnly := false, childLinks := [],
    parentLinks := [], objType := ⟨20002, 1⟩, payload := [], fieldNames := [],
    linkFields := [] }

/-- Repository holding only `sampleNodeA` under root id 0. -/
def sampleStA : St :=
  { node := fun r => if r = 0 then some sampleNodeA else none,
    link := fun _ => none,
    workspace := fun k => if k = WId.loc 5 then some 0 else none,
    counter := 6,
    hashedElements := fun _ => none,
    workspaceRoot := 7 }

/-- An unmodified child root (id 0), pointed at by link 10 of parent 1. -/
def sampleNodeB : RootNode :=
  { myId := WId.loc 2, modified := false, readOnly := false, childLinks := [],
    parentLinks := [10], objType := ⟨20001, 1⟩, payload := [], fieldNames := [],
    linkFields := [] }

/-- The parent root (id 1) holding link 10. -/
def sampleNodeC : RootNode :=
  { myId := WId.loc 3, modified := false, readOnly := false, childLinks := [10],
    parentLinks := [], objType := ⟨20002, 1⟩, payload := [], fieldNames := [],
    linkFields := [] }

/-- The link wrapper (id 10) inside root 1 pointing at root 0. -/
def sampleLinkB : LinkNode :=
  { owner := 1, key := WId.loc 2, isleaf := false, isLinkMsg := true }

/-- Two-node repository: child 0 referenced by parent 1 through link 10. -/
def sampleStB : St :=
  { node := fun x => if x = 0 then some sampleNodeB else
      if x = 1 then some sampleNodeC else none,
    link := fun l => if l = 10 then some sampleLinkB else none,
    workspace := fun k => if k = WId.loc 2 then some 0 else
      if k = WId.loc 3 then some 1 else none,
    counter := 4,
    hashedElements := fun _ => none,
    workspaceRoot := 7 }

theorem sampleStB_CF : CF sampleStB := by
  intro x nx hx c hc heq
  have hc4 : (4 : Nat) ≤ c := hc
  revert hx
  simp only [sampleStB]
  split_ifs with h0 h1
  · intro hx
    cases hx
    rw [sampleNodeB] at heq
    cases heq
    omega
  · intro hx
    cases hx
    rw [sampleNodeC] at heq
    cases heq
    omega
  · intro hx
    cases hx

/-- Witness for C4 at a concrete two-node repository: after marking child
0 the fresh id `loc 4` maps to it, the old entry `loc 2` is gone, and
parent 1 is marked modified with link 10 rewritten. -/
theorem C4_mark_modified_effects_witness :
    (set_parents_modified 2 sampleStB 0).workspace (WId.loc 4) = some 0 ∧
    (set_parents_modified 2 sampleStB 0).workspace (WId.loc 2) = none ∧
    getModified (set_parents_modified 2 sampleStB 0) 1 = true ∧
    (∃ ln', (set_parents_modified 2 sampleStB 0).link 10 = some ln' ∧
      ln'.key = WId.loc 4) := by
  have hdisj : ∀ x nx, sampleStB.node x = some nx → x ≠ 0 →
      ∀ l, l ∈ sampleNodeB.parentLinks → l ∉ nx.parentLinks := by
    intro x nx hx hxr l hl
    revert hx
    simp only [sampleStB]
    split_ifs with h0 h1
    · exact absurd h0 hxr
    · intro hx; cases hx; simp [sampleNodeC]
    · intro hx; cases hx
  have hlive : ∀ l, l ∈ sampleNodeB.parentLinks →
      ∃ ln, sampleStB.link l = some ln ∧ (sampleStB.node ln.owner).isSome = true := by
    intro l hl
    simp only [sampleNodeB, List.mem_singleton] at hl
    subst hl
    exact ⟨sampleLinkB, rfl, rfl⟩
  have h := C4_mark_modified_effects 0 sampleStB 0 sampleNodeB rfl rfl sampleStB_CF
    hdisj hlive
  obtain ⟨_, hb, hc, _, he⟩ := h
  obtain ⟨ln, hln, ⟨ln', hln', hk, _⟩, hmod⟩ := he (by decide) 10 (by simp [sampleNodeB])
  have hlnB : ln = sampleLinkB := by
    have : sampleStB.link 10 = some sampleLinkB := rfl
    rw [this] at hln
    cases hln
    rfl
  refine ⟨hb, hc, ?_, ⟨ln', hln', hk⟩⟩
  rw [hlnB] at hmod
  exact hmod

/-- Witness for C5 at a concrete one-node repository. -/
theorem C5_markModified_idempotent_witness :
    (sampleNodeA.modified = true → set_parents_modified 1 sampleStA 0 = sampleStA) ∧
    set_parents_modified 1 (set_parents_modified 2 sampleStA 0) 0 =
      set_parents_modified 2 sampleStA 0 :=
  C5_markModified_idempotent 1 1 sampleStA 0 sampleNodeA rfl

/-! Link setting and attribute assignment. -/

/-- Errors surfaced by the wrapper layer (`OOIObjectError` instances and
the Python built-ins `KeyError`/`IndexError`). -/
inductive PyErr where
  | readOnlyErr
  | notALink
  | cyclicRef
  | invalidated
  | unresolvedLink
  | keyError
  | indexErr
deriving DecidableEq

/-- `Wrapper.InParents` (gpb_wrapper.py lines 408-422): walk the root's
parent links looking for `value` among the transitive parent roots. -/
def InParents (fuel : Nat) (st : St) (r : RootId) (value : RootId) : Bool :=
  match fuel with
  | 0 => false
  | f + 1 =>
    match st.node r with
    | none => false
    | some n =>
      n.parentLinks.any (fun l =>
        match st.link l with
        | none => false
        | some ln => decide (ln.owner = value) || InParents f st ln.owner value)

/-- Set-style insertion (Python `set.add` / `AddParentLink` dedup). -/
def insertL (l : LinkId) (ls : List LinkId) : List LinkId :=
  if l ∈ ls then ls else l :: ls

/-- `Repository.set_linked_object(link, value)`.  Modelled from the spec:
`repository.py` is not among the provided sources.  Spec section 4.2:
registers `value` as a child — the link's `key` becomes `value`'s id, the
link joins the link root's `child_links` and `value`'s `parent_links` —
and fails with `CyclicReferenceError`, before any mutation, when `value`
(transitively via its parent links) already has the link's root among its
ancestors. -/
def set_linked_object (fuel : Nat) (st : St) (l : LinkId) (value : RootId) :
    Except (PyErr × St) St :=
  match st.link l with
  | none => .error (.keyError, st)
  | some ln =>
    if InParents fuel st value ln.owner then .error (.cyclicRef, st)
    else
      let st1 := setLinkNode st l (fun x => { x with key := getMyId st value })
      let st2 := setNode st1 ln.owner (fun x => { x with childLinks := insertL l x.childLinks })
      let st3 := setNode st2 value (fun x => { x with parentLinks := insertL l x.parentLinks })
      .ok st3

/-- `Wrapper.SetLink` (gpb_wrapper.py lines 370-382): fails with
`OOIObjectError` unless the wrapper is of the Link type, delegates to
`set_linked_object`, then calls `_set_parents_modified` unless the link's
root is already `Modified`.  Note: no `ReadOnly` check appears here. -/
def SetLink (fuel : Nat) (st : St) (l : LinkId) (value : RootId) :
    Except (PyErr × St) St :=
  match st.link l with
  | none => .error (.keyError, st)
  | some ln =>
    if ln.isLinkMsg = false then .error (.notALink, st)
    else
      match set_linked_object fuel st l value with
      | .error e => .error e
      | .ok st1 =>
        if getModified st1 ln.owner then .ok st1
        else .ok (set_parents_modified fuel st1 ln.owner)

/-- `Wrapper.GetLink` by field name (gpb_wrapper.py lines 393-406): fetch
the named field, rewrap, and fail unless it is a Link-typed message.  The
root's `linkFields` table plays the role of the schema lookup; a name that
is absent (unknown field, scalar field, non-Link message) raises. -/
def GetLink (st : St) (r : RootId) (name : String) : Except (PyErr × St) LinkId :=
  match st.node r with
  | none => .error (.keyError, st)
  | some n =>
    match n.linkFields.lookup name with
    | none => .error (.notALink, st)
    | some l => .ok l

/-- `Wrapper.SetLinkByName` (gpb_wrapper.py lines 384-391):
`GetLink` then `SetLink`. -/
def SetLinkByName (fuel : Nat) (st : St) (r : RootId) (name : String)
    (value : RootId) : Except (PyErr × St) St :=
  match GetLink st r name with
  | .error e => .error e
  | .ok l => SetLink fuel st l value

/-- Association-list write, modelling `setattr(gpb, key, value)` on a
scalar schema field. -/
def assocSet (k : String) (v : Nat) : List (String × Nat) → List (String × Nat)
  | [] => [(k, v)]
  | (k1, v1) :: tl => if k1 = k then (k, v) :: tl else (k1, v1) :: assocSet k v tl

/-- The raw schema field setter on the record payload. -/
def setScalarField (st : St) (r : RootId) (key : String) (v : Nat) : St :=
  setNode st r (fun x => { x with payload := assocSet key v x.payload })

/-- Value assigned through attribute syntax: a plain scalar or another
wrapper. -/
inductive SetVal where
  | scalar (v : Nat)
  | wrapper (value : RootId)

/-- `Wrapper.__setattr__` (gpb_wrapper.py lines 657-697).  For a schema
field (`key in self._gpbFields`): raise `ReadOnlyError` when the root is
read-only, else delegate to `SetLinkByName` when the value is a `Wrapper`,
else apply the schema field setter; afterwards always run
`_set_parents_modified`.  Names outside the schema go to the plain
`object.__setattr__` (outside the modelled record state, a no-op here). -/
def setAttr (fuel : Nat) (st : St) (r : RootId) (key : String) (v : SetVal) :
    Except (PyErr × St) St :=
  match st.node r with
  | none => .error (.keyError, st)
  | some n =>
    if key ∈ n.fieldNames then
      if n.readOnly then .error (.readOnlyErr, st)
      else
        match v with
        | .wrapper value =>
          match SetLinkByName fuel st r key value with
          | .error e => .error e
          | .ok st1 => .ok (set_parents_modified fuel st1 r)
        | .scalar x =>
          .ok (set_parents_modified fuel (setScalarField st r key x) r)
    else
      .ok st

/-- `ContainerWrapper.SetLink` (gpb_wrapper.py lines 1006-1021): index
into the repeated composite container, rewrap, require the element to be a
Link, delegate to `set_linked_object`, then unconditionally run
`_set_parents_modified` on the containing wrapper.  No `ReadOnly` check
appears here either (`ContainerWrapper.__setitem__`, lines 987-1003, is
textually identical). -/
def containerSetLink (fuel : Nat) (st : St) (owner : RootId)
    (items : List LinkId) (idx : Nat) (value : RootId) :
    Except (PyErr × St) St :=
  match items.get? idx with
  | none => .error (.indexErr, st)
  | some l =>
    match st.link l with
    | none => .error (.keyError, st)
    | some ln =>
      if ln.isLinkMsg = false then .error (.notALink, st)
      else
        match set_linked_object fuel st l value with
        | .error e => .error e
        | .ok st1 => .ok (set_parents_modified fuel st1 owner)

theorem setNode_isSome (st : St) (r x : RootId) (f : RootNode → RootNode) :
    ((setNode st r f).node x).isSome = (st.node x).isSome := by
  by_cases hx : x = r
  · subst hx
    rw [setNode_node_same]
    cases st.node x <;> rfl
  · rw [setNode_node_other st r x f hx]

theorem slo_nodeDom (fuel : Nat) (st : St) (l : LinkId) (value : RootId)
    (st1 : St) (h : set_linked_object fuel st l value = .ok st1) :
    ∀ x, (st1.node x).isSome = (st.node x).isSome := by
  intro x
  unfold set_linked_object at h
  cases hl : st.link l with
  | none => rw [hl] at h; cases h
  | some ln =>
    rw [hl] at h
    dsimp only at h
    by_cases hc : InParents fuel st value ln.owner
    · rw [if_pos hc] at h; cases h
    · rw [if_neg hc] at h
      cases h
      rw [setNode_isSome, setNode_isSome]
      rfl

theorem SetLink_nodeDom (fuel : Nat) (st : St) (l : LinkId) (value : RootId)
    (st1 : St) (h : SetLink fuel st l value = .ok st1) :
    ∀ x, (st1.node x).isSome = (st.node x).isSome := by
  intro x
  unfold SetLink at h
  cases hl : st.link l with
  | none => rw [hl] at h; cases h
  | some ln =>
    rw [hl] at h
    dsimp only at h
    by_cases ht : ln.isLinkMsg = false
    · rw [if_pos ht] at h; cases h
    · rw [if_neg ht] at h
      cases hs : set_linked_object fuel st l value with
      | error e => rw [hs] at h; cases h
      | ok st2 =>
        rw [hs] at h
        dsimp only at h
        by_cases hm : getModified st2 ln.owner
        · rw [if_pos hm] at h
          cases h
          exact slo_nodeDom fuel st l value st1 hs x
        · rw [if_neg hm] at h
          cases h
          rw [(spm_frame fuel st2 ln.owner).nodeDom]
          exact slo_nodeDom fuel st l value st2 hs x

/-- C6: attribute assignment to a schema field fails with `ReadOnlyError`
before any mutation when the root is read-only; otherwise a wrapper value
is delegated to `SetLinkByName` and a plain value to the schema field
setter, in both cases followed by `_set_parents_modified`, so every
successful assignment leaves the node (and, through the recursive marking,
its ancestors) modified. -/
theorem C6_setattr_readonly_and_delegation (fuel : Nat) (st : St) (r : RootId)
    (n : RootNode) (key : String)
    (hn : st.node r = some n) (hkey : key ∈ n.fieldNames) :
    (n.readOnly = true → ∀ v, setAttr fuel st r key v = .error (.readOnlyErr, st)) ∧
    (n.readOnly = false → ∀ value, setAttr fuel st r key (.wrapper value) =
      (match SetLinkByName fuel st r key value with
       | .error e => .error e
       | .ok st1 => .ok (set_parents_modified fuel st1 r))) ∧
    (n.readOnly = false → ∀ x, setAttr fuel st r key (.scalar x) =
      .ok (set_parents_modified fuel (setScalarField st r key x) r)) ∧
    (∀ g v st1, setAttr (g + 1) st r key v = .ok st1 → getModified st1 r = true) ∧
    (∀ g x, n.modified = false → CF st → r ≠ st.workspaceRoot →
      (∀ y ny, st.node y = some ny → y ≠ r →
        ∀ l, l ∈ n.parentLinks → l ∉ ny.parentLinks) →
      (∀ l, l ∈ n.parentLinks → ∃ ln, st.link l = some ln ∧
        (st.node ln.owner).isSome = true) →
      ∀ l, l ∈ n.parentLinks → ∃ ln, st.link l = some ln ∧
        getModified (set_parents_modified (g + 2) (setScalarField st r key x) r)
          ln.owner = true) := by
  refine ⟨?_, ?_, ?_, ?_, ?_⟩
  · intro hro v
    unfold setAttr
    rw [hn]
    dsimp only
    rw [if_pos hkey, if_pos hro]
  · intro hro value
    unfold setAttr
    rw [hn]
    dsimp only
    rw [if_pos hkey, if_neg (by rw [hro]; exact Bool.false_ne_true)]
  · intro hro x
    unfold setAttr
    rw [hn]
    dsimp only
    rw [if_pos hkey, if_neg (by rw [hro]; exact Bool.false_ne_true)]
  · intro g v st1 h
    unfold setAttr at h
    rw [hn] at h
    dsimp only at h
    rw [if_pos hkey] at h
    by_cases hro : n.readOnly
    · rw [if_pos hro] at h; cases h
    · rw [if_neg hro] at h
      cases v with
      | scalar x =>
        dsimp only at h
        cases h
        have hdom : ((setScalarField st r key x).node r).isSome = true := by
          unfold setScalarField
          rw [setNode_isSome, hn]; rfl
        cases hw : (setScalarField st r key x).node r with
        | none => rw [hw] at hdom; cases hdom
        | some w => exact spm_marks g _ r w hw
      | wrapper value =>
        dsimp only at h
        cases hs : SetLinkByName (g + 1) st r key value with
        | error e => rw [hs] at h; cases h
        | ok st2 =>
          rw [hs] at h
          cases h
          have hdom : (st2.node r).isSome = true := by
            unfold SetLinkByName at hs
            cases hg : GetLink st r key with
            | error e => rw [hg] at hs; cases hs
            | ok l =>
              rw [hg] at hs
              rw [SetLink_nodeDom (g + 1) st l value st2 hs r, hn]
              rfl
          cases hw : st2.node r with
          | none => rw [hw] at hdom; cases hdom
          | some w => exact spm_marks g st2 r w hw
  · intro g x hm hcf hwr hdisj hlive l hl
    have hnS : (setScalarField st r key x).node r =
        some { n with payload := assocSet key x n.payload } := by
      unfold setScalarField
      rw [setNode_node_same, hn]
      rfl
    have hcfS : CF (setScalarField st r key x) := by
      intro y ny hy c hc
      by_cases hyr : y = r
      · subst hyr
        rw [hnS] at hy
        cases hy
        exact hcf y n hn c hc
      · unfold setScalarField at hy
        rw [setNode_node_other _ _ _ _ hyr] at hy
        exact hcf y ny hy c hc
    have hdisjS : ∀ y ny, (setScalarField st r key x).node y = some ny → y ≠ r →
        ∀ a, a ∈ ({ n with payload := assocSet key x n.payload } : RootNode).parentLinks →
          a ∉ ny.parentLinks := by
      intro y ny hy hyr
      unfold setScalarField at hy
      rw [setNode_node_other _ _ _ _ hyr] at hy
      exact hdisj y ny hy hyr
    have hliveS : ∀ a, a ∈ ({ n with payload := assocSet key x n.payload } :
        RootNode).parentLinks →
        ∃ ln, (setScalarField st r key x).link a = some ln ∧
          ((setScalarField st r key x).node ln.owner).isSome = true := by
      intro a ha
      obtain ⟨ln, hln, hown⟩ := hlive a ha
      refine ⟨ln, hln, ?_⟩
      unfold setScalarField
      rw [setNode_isSome]
      exact hown
    obtain ⟨_, _, _, _, he⟩ := C4_mark_modified_effects g (setScalarField st r key x)
      r { n with payload := assocSet key x n.payload } hnS hm hcfS hdisjS hliveS
    have hrS : r ≠ (setScalarField st r key x).workspaceRoot := hwr
    obtain ⟨ln, hln, _, hmod⟩ := he hrS l hl
    exact ⟨ln, hln, hmod⟩

/-- C9: no `ReadOnly` guard exists on the direct link-setting entry
points.  With the link's root read-only, `Wrapper.SetLink` and
`ContainerWrapper.SetLink` still succeed (no `ReadOnlyError` is possible
there), while the same read-only state makes attribute assignment fail —
the guard lives only in `__setattr__`. -/
theorem C9_setlink_no_readonly_guard (fuel : Nat) (st : St) (l : LinkId)
    (ln : LinkNode) (value : RootId)
    (hl : st.link l = some ln) (htype : ln.isLinkMsg = true)
    (hro : getReadOnly st ln.owner = true)
    (hcyc : InParents fuel st value ln.owner = false) :
    (∃ st1, SetLink fuel st l value = .ok st1) ∧
    (∀ owner items idx, items.get? idx = some l →
      ∃ st1, containerSetLink fuel st owner items idx value = .ok st1) ∧
    (∀ r n key v, st.node r = some n → key ∈ n.fieldNames → n.readOnly = true →
      setAttr fuel st r key v = .error (.readOnlyErr, st)) := by
  have hslo : set_linked_object fuel st l value =
      .ok (setNode (setNode (setLinkNode st l (fun x => { x with key := getMyId st value }))
        ln.owner (fun x => { x with childLinks := insertL l x.childLinks }))
        value (fun x => { x with parentLinks := insertL l x.parentLinks })) := by
    unfold set_linked_object
    rw [hl]
    dsimp only
    rw [if_neg (by rw [hcyc]; exact Bool.false_ne_true)]
  refine ⟨?_, ?_, ?_⟩
  · unfold SetLink
    rw [hl]
    dsimp only
    rw [if_neg (by simp [htype]), hslo]
    dsimp only
    split
    · exact ⟨_, rfl⟩
    · exact ⟨_, rfl⟩
  · intro owner items idx hidx
    unfold containerSetLink
    rw [hidx]
    dsimp only
    rw [hl]
    dsimp only
    rw [if_neg (by simp [htype]), hslo]
    exact ⟨_, rfl⟩
  · intro r n key v hn hkey hnro
    unfold setAttr
    rw [hn]
    dsimp only
    rw [if_pos hkey, if_pos hnro]

/-- A writable root with scalar fields, for the C6 witness. -/
def sampleNodeW : RootNode :=
  { myId := WId.loc 0, modified := false, readOnly := false, childLinks := [],
    parentLinks := [], objType := ⟨20001, 1⟩, payload := [],
    fieldNames := ["name", "id"], linkFields := [] }

/-- One-node repository around `sampleNodeW`. -/
def sampleStW : St :=
  { node := fun x => if x = 0 then some sampleNodeW else none,
    link := fun _ => none,
    workspace := fun k => if k = WId.loc 0 then some 0 else none,
    counter := 1,
    hashedElements := fun _ => none,
    workspaceRoot := 7 }

/-- Witness for C6 at a concrete writable one-node repository. -/
theorem C6_setattr_witness :
    (sampleNodeW.readOnly = true →
      ∀ v, setAttr 1 sampleStW 0 "name" v = .error (.readOnlyErr, sampleStW)) ∧
    (sampleNodeW.readOnly = false →
      ∀ value, setAttr 1 sampleStW 0 "name" (.wrapper value) =
      (match SetLinkByName 1 sampleStW 0 "name" value with
       | .error e => .error e
       | .ok st1 => .ok (set_parents_modified 1 st1 0))) ∧
    (sampleNodeW.readOnly = false →
      ∀ x, setAttr 1 sampleStW 0 "name" (.scalar x) =
      .ok (set_parents_modified 1 (setScalarField sampleStW 0 "name" x) 0)) ∧
    (∀ g v st1, setAttr (g + 1) sampleStW 0 "name" v = .ok st1 →
      getModified st1 0 = true) ∧
    (∀ g x, sampleNodeW.modified = false → CF sampleStW →
      (0 : RootId) ≠ sampleStW.workspaceRoot →
      (∀ y ny, sampleStW.node y = some ny → y ≠ 0 →
        ∀ l, l ∈ sampleNodeW.parentLinks → l ∉ ny.parentLinks) →
      (∀ l, l ∈ sampleNodeW.parentLinks → ∃ ln, sampleStW.link l = some ln ∧
        (sampleStW.node ln.owner).isSome = true) →
      ∀ l, l ∈ sampleNodeW.parentLinks → ∃ ln, sampleStW.link l = some ln ∧
        getModified (set_parents_modified (g + 2)
          (setScalarField sampleStW 0 "name" x) 0) ln.owner = true) :=
  C6_setattr_readonly_and_delegation 1 sampleStW 0 sampleNodeW "name" rfl
    (by simp [sampleNodeW])

/-- A read-only root (id 0) holding Link wrapper 20, plus a target root
(id 1), for the C9 witness. -/
def sampleNodeRo : RootNode :=
  { myId := WId.loc 0, modified := false, readOnly := true, childLinks := [20],
    parentLinks := [], objType := ⟨20003, 1⟩, payload := [],
    fieldNames := ["person", "owner"], linkFields := [("owner", 20)] }

/-- The link target root. -/
def sampleNodeTgt : RootNode :=
  { myId := WId.loc 1, modified := true, readOnly := false, childLinks := [],
    parentLinks := [], objType := ⟨20001, 1⟩, payload := [], fieldNames := [],
    linkFields := [] }

/-- The Link wrapper living inside the read-only root. -/
def sampleLinkRo : LinkNode :=
  { owner := 0, key := WId.loc 9, isleaf := false, isLinkMsg := true }

/-- Repository with a read-only root for the C9 witness. -/
def sampleStRo : St :=
  { node := fun x => if x = 0 then some sampleNodeRo else
      if x = 1 then some sampleNodeTgt else none,
    link := fun l => if l = 20 then some sampleLinkRo else none,
    workspace := fun k => if k = WId.loc 0 then some 0 else
      if k = WId.loc 1 then some 1 else none,
    counter := 2,
    hashedElements := fun _ => none,
    workspaceRoot := 7 }

/-- Witness for C9: on the read-only root, direct `SetLink` and the
container `SetLink` succeed while attribute assignment raises. -/
theorem C9_setlink_no_readonly_guard_witness :
    (∃ st1, SetLink 1 sampleStRo 20 1 = .ok st1) ∧
    (∃ st1, containerSetLink 1 sampleStRo 0 [20] 0 1 = .ok st1) ∧
    setAttr 1 sampleStRo 0 "person" (.scalar 3) =
      .error (.readOnlyErr, sampleStRo) := by
  have h := C9_setlink_no_readonly_guard 1 sampleStRo 20 sampleLinkRo 1 rfl rfl rfl rfl
  exact ⟨h.1, h.2.1 0 [20] 0 rfl,
    h.2.2 0 sampleNodeRo "person" (.scalar 3) rfl (by simp [sampleNodeRo]) rfl⟩

/-! The recursive commit. -/

/-- `StructureElement.sha1` (gpb_wrapper.py lines 1302-1337): the content
key is the SHA-1 of (SHA-1 of the serialized value) concatenated with the
serialized type — the double hash keeps a fixed-length first stage and
binds the type into the identity. -/
def seSha1 (env : Env) (se : SE) : List Nat :=
  env.sha1 (env.sha1 se.value ++ env.serType se.typ)

/-- The `structure` argument of `RecurseCommit`, as an append log of the
`structure[se.key] = se` writes.  Python 2 dictionaries are unordered, so
the list order carries only the chronology of the additions; a repeated
key means the later entry is the dictionary's value. -/
abbrev Sink := List (WId × SE)

/-- Does the sink dictionary hold key `k`? -/
def sinkHasKey (sink : Sink) (k : WId) : Bool :=
  sink.any (fun p => p.1 = k)

/-- `se.ChildLinks.add(key)` — a Python set insertion, tracked in add
order. -/
def seAddKey (k : WId) (ks : List WId) : List WId :=
  if k ∈ ks then ks else ks ++ [k]

/-- Current `key` field of a link wrapper (junk default outside the heap
domain; the source would raise there). -/
def getLinkKey (st : St) (l : LinkId) : WId :=
  match st.link l with
  | some ln => ln.key
  | none => WId.loc 0

/-- The `for link in self.ParentLinks: link.key = self.MyId` loop ending
`RecurseCommit` (gpb_wrapper.py lines 519-521). -/
def rcFixParents (st : St) (r : RootId) : List LinkId → St
  | [] => st
  | l :: ls =>
    rcFixParents (setLinkNode st l (fun x => { x with key := getMyId st r })) r ls

/-- The `StructureElement` built by `RecurseCommit` for a node
(gpb_wrapper.py lines 492-506): `se.value = self.SerializeToString()`
(the wire bytes cover the scalar payload and the current child-link
keys), `se.type = self.ObjectType`, `se.key = se.sha1`, and `se.isleaf`
from the emptiness of `ChildLinks`; `se.ChildLinks` is the key set
collected during the child loop. -/
def rcSe (env : Env) (st1 : St) (n1 : RootNode) (childKeys : List WId) : SE :=
  let value := env.serValue n1.payload (n1.childLinks.map (fun l => getLinkKey st1 l))
  { value := value, typ := n1.objType,
    key := WId.hash (env.sha1 (env.sha1 value ++ env.serType n1.objType)),
    isleaf := n1.childLinks.isEmpty, childKeys := childKeys }

/-- State updates ending `RecurseCommit` (gpb_wrapper.py lines 509-521):
re-key the workspace from the old `MyId` to the content hash when the old
id is present, assign `MyId`, clear `Modified`, and write the new id into
every parent link's `key`. -/
def rcFinishSt (st1 : St) (r : RootId) (n1 : RootNode) (k : WId) : St :=
  let st2 := if wsHasKey st1 (getMyId st1 r) then
      wsSet (wsDel st1 (getMyId st1 r)) k r
    else st1
  let st3 := setNode st2 r (fun x => { x with myId := k })
  let st4 := setNode st3 r (fun x => { x with modified := false })
  rcFixParents st4 r n1.parentLinks

/-- The `for link in self.ChildLinks` loop of `RecurseCommit`
(gpb_wrapper.py lines 468-490), abstracted over the recursive call on a
child (a structural-recursion device; `rcChildren` below ties the knot).
A child whose `link.key` is already in `repo._hashed_elements` only
yields its memoized `isleaf`; otherwise the child is resolved
(`get_linked_object`, modelled from the spec as the workspace lookup of
the link's key — an absent key is the `UnresolvedLinkError` of spec
section 4.3), the link's `isleaf` set from the child's `ChildLinks`, and
the child committed recursively.  After either branch the link's current
`key` joins `se.ChildLinks`. -/
def rcChildrenGo (rc : St → Sink → RootId → Option (St × Sink)) :
    St → Sink → List LinkId → List WId → Option (St × Sink × List WId)
  | st, sink, [], acc => some (st, sink, acc)
  | st, sink, l :: ls, acc =>
    match st.link l with
    | none => none
    | some ln =>
      match st.hashedElements ln.key with
      | some cse =>
        let st1 := setLinkNode st l (fun x => { x with isleaf := cse.isleaf })
        rcChildrenGo rc st1 sink ls (seAddKey (getLinkKey st1 l) acc)
      | none =>
        match st.workspace ln.key with
        | none => none
        | some c =>
          match st.node c with
          | none => none
          | some cn =>
            let st1 := setLinkNode st l
              (fun x => { x with isleaf := cn.childLinks.isEmpty })
            match rc st1 sink c with
            | none => none
            | some (st2, sink2) =>
              rcChildrenGo rc st2 sink2 ls (seAddKey (getLinkKey st2 l) acc)

/-- `Wrapper.RecurseCommit` (gpb_wrapper.py lines 452-523).  An
unmodified root is already committed and returns at once.  Otherwise the
child links are processed (`rcChildrenGo`), the node is serialized, the
`StructureElement` built with `se.key = se.sha1`, the workspace re-keyed
from the old `MyId` to the hash when the old id is present, `MyId` and
`Modified` updated, the parent links' `key` fields fixed up, and the
element stored in the sink.  `get_linked_object` failures and fuel
exhaustion (a cyclic graph, an infinite recursion in the source) give
`none`. -/
def RecurseCommit : Nat → Env → St → Sink → RootId → Option (St × Sink)
  | 0, _, _, _, _ => none
  | fuel + 1, env, st, sink, r =>
    match st.node r with
    | none => none
    | some n =>
      if n.modified = false then some (st, sink)
      else
        match rcChildrenGo (RecurseCommit fuel env) st sink n.childLinks [] with
        | none => none
        | some (st1, sink1, childKeys) =>
          match st1.node r with
          | none => none
          | some n1 =>
            let se := rcSe env st1 n1 childKeys
            some (rcFinishSt st1 r n1 se.key, sink1 ++ [(se.key, se)])

/-- The child loop with the recursion tied at fuel `f`. -/
def rcChildren (f : Nat) (env : Env) (st : St) (sink : Sink) (ls : List LinkId)
    (acc : List WId) : Option (St × Sink × List WId) :=
  rcChildrenGo (RecurseCommit f env) st sink ls acc

/-! Unfolding lemmas for the commit. -/

@[simp] theorem rc_zero (env : Env) (st : St) (sink : Sink) (r : RootId) :
    RecurseCommit 0 env st sink r = none := by
  simp [RecurseCommit]

theorem rc_none (f : Nat) (env : Env) (st : St) (sink : Sink) (r : RootId)
    (hn : st.node r = none) :
    RecurseCommit (f + 1) env st sink r = none := by
  simp [RecurseCommit, hn]

theorem rc_noop (f : Nat) (env : Env) (st : St) (sink : Sink) (r : RootId)
    (n : RootNode) (hn : st.node r = some n) (hm : n.modified = false) :
    RecurseCommit (f + 1) env st sink r = some (st, sink) := by
  simp [RecurseCommit, hn, hm]

theorem rc_succ_mod (f : Nat) (env : Env) (st : St) (sink : Sink) (r : RootId)
    (n : RootNode) (hn : st.node r = some n) (hm : n.modified = true) :
    RecurseCommit (f + 1) env st sink r =
      match rcChildren f env st sink n.childLinks [] with
      | none => none
      | some (st1, sink1, childKeys) =>
        match st1.node r with
        | none => none
        | some n1 =>
          some (rcFinishSt st1 r n1 (rcSe env st1 n1 childKeys).key,
            sink1 ++ [((rcSe env st1 n1 childKeys).key, rcSe env st1 n1 childKeys)]) := by
  show (match st.node r with
    | none => none
    | some n =>
      if n.modified = false then some (st, sink)
      else
        match rcChildren f env st sink n.childLinks [] with
        | none => none
        | some (st1, sink1, childKeys) =>
          match st1.node r with
          | none => none
          | some n1 =>
            let se := rcSe env st1 n1 childKeys
            some (rcFinishSt st1 r n1 se.key, sink1 ++ [(se.key, se)])) = _
  rw [hn]
  simp only [hm]
  simp

@[simp] theorem rcChildren_nil (f : Nat) (env : Env) (st : St) (sink : Sink)
    (acc : List WId) :
    rcChildren f env st sink [] acc = some (st, sink, acc) := rfl

theorem rcChildren_cons (f : Nat) (env : Env) (st : St) (sink : Sink)
    (l : LinkId) (ls : List LinkId) (acc : List WId) :
    rcChildren f env st sink (l :: ls) acc =
      match st.link l with
      | none => none
      | some ln =>
        match st.hashedElements ln.key with
        | some cse =>
          let st1 := setLinkNode st l (fun x => { x with isleaf := cse.isleaf })
          rcChildren f env st1 sink ls (seAddKey (getLinkKey st1 l) acc)
        | none =>
          match st.workspace ln.key with
          | none => none
          | some c =>
            match st.node c with
            | none => none
            | some cn =>
              let st1 := setLinkNode st l
                (fun x => { x with isleaf := cn.childLinks.isEmpty })
              match RecurseCommit f env st1 sink c with
              | none => none
              | some (st2, sink2) =>
                rcChildren f env st2 sink2 ls (seAddKey (getLinkKey st2 l) acc) := rfl

/-! Invariants and frame for the commit. -/

/-- What `RecurseCommit` can never do: create or delete wrappers, change
link-set membership, `readOnly`, the record content, a link's owner or
type, or the hashed-elements table.  It only rewrites `myId`, `modified`,
link `key`/`isleaf` fields and the workspace. -/
structure RcFrame (st st' : St) : Prop where
  he : st'.hashedElements = st.hashedElements
  nodeDom : ∀ x, (st'.node x).isSome = (st.node x).isSome
  nodeFields : ∀ x nx', st'.node x = some nx' → ∃ nx, st.node x = some nx ∧
    nx'.childLinks = nx.childLinks ∧ nx'.parentLinks = nx.parentLinks ∧
    nx'.readOnly = nx.readOnly ∧ nx'.objType = nx.objType ∧
    nx'.payload = nx.payload ∧ nx'.fieldNames = nx.fieldNames ∧
    nx'.linkFields = nx.linkFields
  linkDom : ∀ x, (st'.link x).isSome = (st.link x).isSome
  linkFrame : ∀ x ln', st'.link x = some ln' → ∃ ln, st.link x = some ln ∧
    ln'.owner = ln.owner ∧ ln'.isLinkMsg = ln.isLinkMsg

theorem RcFrame.rcRefl (st : St) : RcFrame st st where
  he := rfl
  nodeDom := fun _ => rfl
  nodeFields := fun _ nx' h => ⟨nx', h, rfl, rfl, rfl, rfl, rfl, rfl, rfl⟩
  linkDom := fun _ => rfl
  linkFrame := fun _ ln' h => ⟨ln', h, rfl, rfl⟩

theorem RcFrame.rcTrans {s1 s2 s3 : St} (a : RcFrame s1 s2) (b : RcFrame s2 s3) :
    RcFrame s1 s3 where
  he := b.he.trans a.he
  nodeDom := fun x => (b.nodeDom x).trans (a.nodeDom x)
  nodeFields := by
    intro x nx3 h3
    obtain ⟨nx2, h2, e1, e2, e3, e4, e5, e6, e7⟩ := b.nodeFields x nx3 h3
    obtain ⟨nx1, h1, f1, f2, f3, f4, f5, f6, f7⟩ := a.nodeFields x nx2 h2
    exact ⟨nx1, h1, e1.trans f1, e2.trans f2, e3.trans f3, e4.trans f4,
      e5.trans f5, e6.trans f6, e7.trans f7⟩
  linkDom := fun x => (b.linkDom x).trans (a.linkDom x)
  linkFrame := by
    intro x ln3 h3
    obtain ⟨ln2, h2, e1, e2⟩ := b.linkFrame x ln3 h3
    obtain ⟨ln1, h1, f1, f2⟩ := a.linkFrame x ln2 h2
    exact ⟨ln1, h1, e1.trans f1, e2.trans f2⟩

/-- `setLinkNode` with a key/isleaf rewrite is inside the frame. -/
theorem RcFrame.setLinkAny (st : St) (l : LinkId) (g : LinkNode → LinkNode)
    (hg : ∀ x, (g x).owner = x.owner ∧ (g x).isLinkMsg = x.isLinkMsg) :
    RcFrame st (setLinkNode st l g) where
  he := rfl
  nodeDom := fun _ => rfl
  nodeFields := fun _ nx' h => ⟨nx', h, rfl, rfl, rfl, rfl, rfl, rfl, rfl⟩
  linkDom := by
    intro x
    by_cases hx : x = l
    · subst hx; rw [setLinkNode_link_same]; cases st.link x <;> rfl
    · rw [setLinkNode_link_other st l x g hx]
  linkFrame := by
    intro x ln' h
    by_cases hx : x = l
    · subst hx
      rw [setLinkNode_link_same] at h
      cases hln : st.link x with
      | none => rw [hln] at h; cases h
      | some ln =>
        rw [hln] at h
        cases h
        exact ⟨ln, rfl, (hg ln).1, (hg ln).2⟩
    · rw [setLinkNode_link_other st l x g hx] at h
      exact ⟨ln', h, rfl, rfl⟩

/-- Workspace-consistency invariant of the repository, relative to the
current sink: workspace bindings point at roots carrying the bound id;
links resolving through a still-local key are registered in their target's
`parentLinks`; unmodified roots carry hash ids that are memoized or
already committed; hashed-element keys are hashes; modified roots carry
local ids. -/
def wfC (st : St) (sink : Sink) : Prop :=
  (∀ k c, st.workspace k = some c → ∃ cn, st.node c = some cn ∧ cn.myId = k) ∧
  (∀ l ln c, st.link l = some ln → ln.key.isHash = false →
    st.workspace ln.key = some c → ∀ cn, st.node c = some cn →
    l ∈ cn.parentLinks) ∧
  (∀ x nx, st.node x = some nx → nx.modified = false →
    nx.myId.isHash = true ∧
    ((st.hashedElements nx.myId).isSome = true ∨ sinkHasKey sink nx.myId = true)) ∧
  (∀ k, (st.hashedElements k).isSome = true → k.isHash = true) ∧
  (∀ x nx, st.node x = some nx → nx.modified = true → nx.myId.isHash = false)

/-- A recorded child key is sound: a hash key that is memoized or already
in the sink. -/
def goodCk (st : St) (sink : Sink) (ck : WId) : Prop :=
  ck.isHash = true ∧
  ((st.hashedElements ck).isSome = true ∨ sinkHasKey sink ck = true)

/-- Children-before-parents: read against already-seen keys `ks`, each
sink entry's child keys are hash keys that are memoized or appear earlier
in the log. -/
def orderedFrom (he : WId → Option SE) : List WId → Sink → Prop
  | _, [] => True
  | ks, (k, se) :: tl =>
    (∀ ck ∈ se.childKeys, ck.isHash = true ∧ ((he ck).isSome = true ∨ ck ∈ ks)) ∧
    orderedFrom he (ks ++ [k]) tl

/-- The key law of C1: every sink entry is stored under
`sha1(sha1(value) ++ serialize(type))`, which is also the element's own
`key` field. -/
def keyLaw (env : Env) (sink : Sink) : Prop :=
  ∀ p ∈ sink, p.1 = WId.hash (seSha1 env p.2) ∧ p.2.key = p.1

theorem sinkHasKey_append_left (s t : Sink) (k : WId) (h : sinkHasKey s k = true) :
    sinkHasKey (s ++ t) k = true := by
  unfold sinkHasKey at h ⊢
  rw [List.any_append, h]
  rfl

theorem sinkHasKey_append_last (s : Sink) (k : WId) (se : SE) :
    sinkHasKey (s ++ [(k, se)]) k = true := by
  unfold sinkHasKey
  rw [List.any_append]
  simp

theorem sinkHasKey_mem (s : Sink) (k : WId) (h : sinkHasKey s k = true) :
    k ∈ s.map Prod.fst := by
  unfold sinkHasKey at h
  rw [List.any_eq_true] at h
  obtain ⟨p, hp, he⟩ := h
  rw [decide_eq_true_eq] at he
  rw [← he]
  exact List.mem_map_of_mem Prod.fst hp

theorem orderedFrom_append_one (he : WId → Option SE) (ks : List WId) (s : Sink)
    (k : WId) (se : SE) (hord : orderedFrom he ks s)
    (hgood : ∀ ck ∈ se.childKeys, ck.isHash = true ∧
      ((he ck).isSome = true ∨ ck ∈ ks ++ s.map Prod.fst)) :
    orderedFrom he ks (s ++ [(k, se)]) := by
  induction s generalizing ks with
  | nil =>
    refine ⟨?_, trivial⟩
    intro ck hck
    obtain ⟨h1, h2⟩ := hgood ck hck
    refine ⟨h1, ?_⟩
    simpa using h2
  | cons p tl ih =>
    obtain ⟨k0, se0⟩ := p
    obtain ⟨hhead, htail⟩ := hord
    refine ⟨hhead, ih (ks ++ [k0]) htail ?_⟩
    intro ck hck
    obtain ⟨h1, h2⟩ := hgood ck hck
    refine ⟨h1, ?_⟩
    cases h2 with
    | inl h => exact Or.inl h
    | inr h =>
      right
      simp only [List.map_cons, List.append_assoc] at h ⊢
      simpa using h

theorem keyLaw_append_one (env : Env) (s : Sink) (k : WId) (se : SE)
    (hlaw : keyLaw env s) (hk : k = WId.hash (seSha1 env se)) (hse : se.key = k) :
    keyLaw env (s ++ [(k, se)]) := by
  intro p hp
  rw [List.mem_append] at hp
  cases hp with
  | inl h => exact hlaw p h
  | inr h =>
    rw [List.mem_singleton] at h
    subst h
    exact ⟨hk, hse⟩

/-! Behaviour of the parent fix-up loop. -/

theorem rcFixParents_node (r : RootId) :
    ∀ (ls : List LinkId) (st : St), (rcFixParents st r ls).node = st.node := by
  intro ls
  induction ls with
  | nil => intro st; rfl
  | cons a tl ih => intro st; rw [rcFixParents, ih]; rfl

theorem rcFixParents_workspace (r : RootId) :
    ∀ (ls : List LinkId) (st : St),
      (rcFixParents st r ls).workspace = st.workspace := by
  intro ls
  induction ls with
  | nil => intro st; rfl
  | cons a tl ih => intro st; rw [rcFixParents, ih]; rfl

theorem rcFixParents_he (r : RootId) :
    ∀ (ls : List LinkId) (st : St),
      (rcFixParents st r ls).hashedElements = st.hashedElements := by
  intro ls
  induction ls with
  | nil => intro st; rfl
  | cons a tl ih => intro st; rw [rcFixParents, ih]; rfl

theorem rcFixParents_link_not_mem (r : RootId) :
    ∀ (ls : List LinkId) (st : St) (l : LinkId), l ∉ ls →
      (rcFixParents st r ls).link l = st.link l := by
  intro ls
  induction ls with
  | nil => intro st l _; rfl
  | cons a tl ih =>
    intro st l hl
    rw [rcFixParents, ih _ l (fun h => hl (List.mem_cons_of_mem a h))]
    exact setLinkNode_link_other st a l _ (fun h => hl (h ▸ List.mem_cons_self a tl))

theorem rcFixParents_frame (r : RootId) :
    ∀ (ls : List LinkId) (st : St), RcFrame st (rcFixParents st r ls) := by
  intro ls
  induction ls with
  | nil => intro st; exact RcFrame.rcRefl st
  | cons a tl ih =>
    intro st
    rw [rcFixParents]
    exact RcFrame.rcTrans
      (RcFrame.setLinkAny st a (fun x => { x with key := getMyId st r })
        (fun x => ⟨rfl, rfl⟩)) (ih _)

theorem rcFixParents_key (r : RootId) (k : WId) :
    ∀ (ls : List LinkId) (st : St), getMyId st r = k →
      ∀ l ∈ ls, ∀ ln', (rcFixParents st r ls).link l = some ln' → ln'.key = k := by
  intro ls
  induction ls with
  | nil => intro st _ l hl; cases hl
  | cons a tl ih =>
    intro st hmy l hl ln' hln'
    have hmy1 : getMyId (setLinkNode st a (fun x => { x with key := getMyId st r })) r = k := by
      unfold getMyId at hmy ⊢
      rw [setLinkNode_node]
      exact hmy
    by_cases hmem : l ∈ tl
    · exact ih _ hmy1 l hmem ln' (by rw [rcFixParents] at hln'; exact hln')
    · have hla : l = a := by
        cases hl with
        | head => rfl
        | tail _ h => exact absurd h hmem
      subst hla
      rw [rcFixParents, rcFixParents_link_not_mem r tl _ l hmem,
        setLinkNode_link_same] at hln'
      cases hln0 : st.link l with
      | none => rw [hln0] at hln'; cases hln'
      | some ln0 =>
        rw [hln0] at hln'
        cases hln'
        exact hmy

theorem rcFixParents_link_cases (r : RootId) (k : WId) :
    ∀ (ls : List LinkId) (st : St), getMyId st r = k →
      ∀ l ln', (rcFixParents st r ls).link l = some ln' →
        st.link l = some ln' ∨ ln'.key = k := by
  intro ls
  induction ls with
  | nil => intro st _ l ln' h; exact Or.inl h
  | cons a tl ih =>
    intro st hmy l ln' hln'
    rw [rcFixParents] at hln'
    have hmy1 : getMyId (setLinkNode st a (fun x => { x with key := getMyId st r })) r = k := by
      unfold getMyId at hmy ⊢
      rw [setLinkNode_node]
      exact hmy
    cases ih _ hmy1 l ln' hln' with
    | inr h => exact Or.inr h
    | inl h =>
      by_cases hla : l = a
      · subst hla
        rw [setLinkNode_link_same] at h
        cases hln0 : st.link l with
        | none => rw [hln0] at h; cases h
        | some ln0 =>
          rw [hln0] at h
          cases h
          exact Or.inr hmy
      · rw [setLinkNode_link_other st a l _ hla] at h
        exact Or.inl h

/-! Behaviour of the commit finish. -/

theorem rcFinishSt_node_r (st1 : St) (r : RootId) (n1 : RootNode) (k : WId)
    (hn1 : st1.node r = some n1) :
    (rcFinishSt st1 r n1 k).node r = some { n1 with myId := k, modified := false } := by
  unfold rcFinishSt
  dsimp only
  rw [rcFixParents_node, setNode_node_same, setNode_node_same]
  have h2 : (if wsHasKey st1 (getMyId st1 r) then
      wsSet (wsDel st1 (getMyId st1 r)) k r else st1).node r = some n1 := by
    split <;> exact hn1
  rw [h2]
  rfl

theorem rcFinishSt_node_other (st1 : St) (r x : RootId) (n1 : RootNode) (k : WId)
    (hx : x ≠ r) :
    (rcFinishSt st1 r n1 k).node x = st1.node x := by
  unfold rcFinishSt
  dsimp only
  rw [rcFixParents_node, setNode_node_other _ _ _ _ hx, setNode_node_other _ _ _ _ hx]
  split <;> rfl

theorem rcFinishSt_workspace (st1 : St) (r : RootId) (n1 : RootNode) (k : WId)
    (hn1 : st1.node r = some n1) :
    (rcFinishSt st1 r n1 k).workspace =
      (if wsHasKey st1 n1.myId then wsSet (wsDel st1 n1.myId) k r else st1).workspace := by
  unfold rcFinishSt
  dsimp only
  rw [rcFixParents_workspace]
  rw [getMyId_eq st1 r n1 hn1]
  rfl

theorem rcFinishSt_he (st1 : St) (r : RootId) (n1 : RootNode) (k : WId) :
    (rcFinishSt st1 r n1 k).hashedElements = st1.hashedElements := by
  unfold rcFinishSt
  dsimp only
  rw [rcFixParents_he]
  split <;> rfl

theorem rcFinishSt_getMyId4 (st1 : St) (r : RootId) (n1 : RootNode) (k : WId)
    (hn1 : st1.node r = some n1) :
    getMyId (setNode (setNode (if wsHasKey st1 (getMyId st1 r) then
        wsSet (wsDel st1 (getMyId st1 r)) k r else st1) r
        (fun x => { x with myId := k })) r
        (fun x => { x with modified := false })) r = k := by
  have h2 : (if wsHasKey st1 (getMyId st1 r) then
      wsSet (wsDel st1 (getMyId st1 r)) k r else st1).node r = some n1 := by
    split <;> exact hn1
  have h4 : (setNode (setNode (if wsHasKey st1 (getMyId st1 r) then
      wsSet (wsDel st1 (getMyId st1 r)) k r else st1) r
      (fun x => { x with myId := k })) r
      (fun x => { x with modified := false })).node r =
      some { n1 with myId := k, modified := false } := by
    rw [setNode_node_same, setNode_node_same, h2]
    rfl
  rw [getMyId_eq _ r _ h4]

theorem rcFinishSt_parent_keys (st1 : St) (r : RootId) (n1 : RootNode) (k : WId)
    (hn1 : st1.node r = some n1) :
    ∀ l ∈ n1.parentLinks, ∀ ln', (rcFinishSt st1 r n1 k).link l = some ln' →
      ln'.key = k := by
  intro l hl ln' hln'
  exact rcFixParents_key r k n1.parentLinks _
    (rcFinishSt_getMyId4 st1 r n1 k hn1) l hl ln' hln'

theorem rcFinishSt_link_cases (st1 : St) (r : RootId) (n1 : RootNode) (k : WId)
    (hn1 : st1.node r = some n1) :
    ∀ l ln', (rcFinishSt st1 r n1 k).link l = some ln' →
      st1.link l = some ln' ∨ ln'.key = k := by
  intro l ln' hln'
  have h := rcFixParents_link_cases r k n1.parentLinks _
    (rcFinishSt_getMyId4 st1 r n1 k hn1) l ln' hln'
  cases h with
  | inr hk => exact Or.inr hk
  | inl h0 =>
    left
    rw [setNode_link, setNode_link] at h0
    revert h0
    split <;> exact fun h => h

theorem RcFrame.wsOnly (st st1 : St) (hn : st1.node = st.node)
    (hl : st1.link = st.link) (hh : st1.hashedElements = st.hashedElements) :
    RcFrame st st1 where
  he := hh
  nodeDom := fun x => by rw [hn]
  nodeFields := fun x nx' h => ⟨nx', by rw [hn] at h; exact h,
    rfl, rfl, rfl, rfl, rfl, rfl, rfl⟩
  linkDom := fun x => by rw [hl]
  linkFrame := fun x ln' h => ⟨ln', by rw [hl] at h; exact h, rfl, rfl⟩

theorem RcFrame.setNodeAny (st : St) (r : RootId) (g : RootNode → RootNode)
    (hg : ∀ x, (g x).childLinks = x.childLinks ∧ (g x).parentLinks = x.parentLinks ∧
      (g x).readOnly = x.readOnly ∧ (g x).objType = x.objType ∧
      (g x).payload = x.payload ∧ (g x).fieldNames = x.fieldNames ∧
      (g x).linkFields = x.linkFields) :
    RcFrame st (setNode st r g) where
  he := rfl
  nodeDom := fun x => setNode_isSome st r x g
  nodeFields := by
    intro x nx' h
    by_cases hx : x = r
    · subst hx
      rw [setNode_node_same] at h
      cases hnx : st.node x with
      | none => rw [hnx] at h; cases h
      | some nx =>
        rw [hnx] at h
        cases h
        obtain ⟨e1, e2, e3, e4, e5, e6, e7⟩ := hg nx
        exact ⟨nx, rfl, e1, e2, e3, e4, e5, e6, e7⟩
    · rw [setNode_node_other _ _ _ _ hx] at h
      exact ⟨nx', h, rfl, rfl, rfl, rfl, rfl, rfl, rfl⟩
  linkDom := fun _ => rfl
  linkFrame := fun _ ln' h => ⟨ln', h, rfl, rfl⟩

theorem rcFinishSt_frame (st1 : St) (r : RootId) (n1 : RootNode) (k : WId) :
    RcFrame st1 (rcFinishSt st1 r n1 k) := by
  unfold rcFinishSt
  dsimp only
  have f1 : RcFrame st1 (if wsHasKey st1 (getMyId st1 r) then
      wsSet (wsDel st1 (getMyId st1 r)) k r else st1) := by
    apply RcFrame.wsOnly
    · split <;> rfl
    · split <;> rfl
    · split <;> rfl
  have f2 := RcFrame.setNodeAny (if wsHasKey st1 (getMyId st1 r) then
      wsSet (wsDel st1 (getMyId st1 r)) k r else st1) r
      (fun x => { x with myId := k })
      (fun x => ⟨rfl, rfl, rfl, rfl, rfl, rfl, rfl⟩)
  have f3 := RcFrame.setNodeAny (setNode (if wsHasKey st1 (getMyId st1 r) then
      wsSet (wsDel st1 (getMyId st1 r)) k r else st1) r
      (fun x => { x with myId := k })) r
      (fun x => { x with modified := false })
      (fun x => ⟨rfl, rfl, rfl, rfl, rfl, rfl, rfl⟩)
  exact RcFrame.rcTrans (RcFrame.rcTrans (RcFrame.rcTrans f1 f2) f3)
    (rcFixParents_frame r _ _)

/-- The workspace-consistency invariant survives the commit finish: all
five clauses of `wfC` hold again after the re-key, the id/flag writes and
the parent fix-up, against the extended sink. -/
theorem rc_finish_wfC (st1 : St) (sink1 : Sink) (r : RootId) (n1 : RootNode)
    (k : WId) (se : SE) (hn1 : st1.node r = some n1) (hwf : wfC st1 sink1)
    (hkh : k.isHash = true) :
    wfC (rcFinishSt st1 r n1 k) (sink1 ++ [(k, se)]) := by
  obtain ⟨w1, w2, w3, w4, w6⟩ := hwf
  refine ⟨?_, ?_, ?_, ?_, ?_⟩
  · intro ka c hws
    rw [rcFinishSt_workspace st1 r n1 k hn1] at hws
    by_cases hhk : wsHasKey st1 n1.myId
    · rw [if_pos hhk] at hws
      by_cases hka : ka = k
      · subst hka
        rw [wsSet_workspace_same] at hws
        cases hws
        exact ⟨{ n1 with myId := ka, modified := false },
          rcFinishSt_node_r st1 r n1 ka hn1, rfl⟩
      · rw [wsSet_workspace_other _ _ _ _ hka] at hws
        by_cases hka2 : ka = n1.myId
        · subst hka2
          rw [wsDel_workspace_same] at hws
          cases hws
        · rw [wsDel_workspace_other _ _ _ hka2] at hws
          obtain ⟨cn, hcn, hmy⟩ := w1 ka c hws
          have hcr : c ≠ r := by
            intro h
            subst h
            rw [hn1] at hcn
            cases hcn
            exact hka2 hmy.symm
          refine ⟨cn, ?_, hmy⟩
          rw [rcFinishSt_node_other st1 r c n1 k hcr]
          exact hcn
    · rw [if_neg hhk] at hws
      obtain ⟨cn, hcn, hmy⟩ := w1 ka c hws
      have hcr : c ≠ r := by
        intro h
        subst h
        rw [hn1] at hcn
        cases hcn
        exact hhk (by unfold wsHasKey; rw [hmy, hws]; rfl)
      refine ⟨cn, ?_, hmy⟩
      rw [rcFinishSt_node_other st1 r c n1 k hcr]
      exact hcn
  · intro l ln' c hl hlocal hws cn hcn
    cases rcFinishSt_link_cases st1 r n1 k hn1 l ln' hl with
    | inr hkey =>
      rw [hkey, hkh] at hlocal
      cases hlocal
    | inl hl1 =>
      rw [rcFinishSt_workspace st1 r n1 k hn1] at hws
      have hws1 : st1.workspace ln'.key = some c := by
        by_cases hhk : wsHasKey st1 n1.myId
        · rw [if_pos hhk] at hws
          have hxk : ln'.key ≠ k := by
            intro h
            rw [h, hkh] at hlocal
            cases hlocal
          rw [wsSet_workspace_other _ _ _ _ hxk] at hws
          by_cases h2 : ln'.key = n1.myId
          · rw [h2, wsDel_workspace_same] at hws
            cases hws
          · rw [wsDel_workspace_other _ _ _ h2] at hws
            exact hws
        · rw [if_neg hhk] at hws
          exact hws
      by_cases hcr : c = r
      · subst hcr
        rw [rcFinishSt_node_r st1 c n1 k hn1] at hcn
        cases hcn
        exact w2 l ln' c hl1 hlocal hws1 n1 hn1
      · rw [rcFinishSt_node_other st1 r c n1 k hcr] at hcn
        exact w2 l ln' c hl1 hlocal hws1 cn hcn
  · intro x nx hx hmod
    by_cases hxr : x = r
    · subst hxr
      rw [rcFinishSt_node_r st1 x n1 k hn1] at hx
      cases hx
      exact ⟨hkh, Or.inr (sinkHasKey_append_last sink1 k se)⟩
    · rw [rcFinishSt_node_other st1 r x n1 k hxr] at hx
      obtain ⟨h1, h2⟩ := w3 x nx hx hmod
      refine ⟨h1, ?_⟩
      rw [rcFinishSt_he]
      cases h2 with
      | inl h => exact Or.inl h
      | inr h => exact Or.inr (sinkHasKey_append_left sink1 _ _ h)
  · intro k0 h0
    rw [rcFinishSt_he] at h0
    exact w4 k0 h0
  · intro x nx hx hmod
    by_cases hxr : x = r
    · subst hxr
      rw [rcFinishSt_node_r st1 x n1 k hn1] at hx
      cases hx
      cases hmod
    · rw [rcFinishSt_node_other st1 r x n1 k hxr] at hx
      exact w6 x nx hx hmod

theorem seAddKey_mem (k : WId) (ks : List WId) (ck : WId)
    (h : ck ∈ seAddKey k ks) : ck ∈ ks ∨ ck = k := by
  unfold seAddKey at h
  split at h
  · exact Or.inl h
  · rw [List.mem_append, List.mem_singleton] at h
    exact h

theorem goodCk_mono (st st1 : St) (sink sink1 : Sink) (ck : WId)
    (hhe : st1.hashedElements = st.hashedElements)
    (hext : ∃ d, sink1 = sink ++ d)
    (h : goodCk st sink ck) : goodCk st1 sink1 ck := by
  obtain ⟨d, rfl⟩ := hext
  obtain ⟨h1, h2⟩ := h
  refine ⟨h1, ?_⟩
  rw [hhe]
  cases h2 with
  | inl h => exact Or.inl h
  | inr h => exact Or.inr (sinkHasKey_append_left sink d ck h)

theorem wfC_setIsleaf (st : St) (sink : Sink) (l : LinkId) (b : Bool)
    (hwf : wfC st sink) :
    wfC (setLinkNode st l (fun x => { x with isleaf := b })) sink := by
  obtain ⟨w1, w2, w3, w4, w6⟩ := hwf
  refine ⟨w1, ?_, w3, w4, w6⟩
  intro l1 ln' c hl' hlocal hws cn hcn
  by_cases hx : l1 = l
  · subst hx
    rw [setLinkNode_link_same] at hl'
    cases hln : st.link l1 with
    | none => rw [hln] at hl'; cases hl'
    | some ln =>
      rw [hln] at hl'
      cases hl'
      exact w2 l1 ln c hln hlocal hws cn hcn
  · rw [setLinkNode_link_other st l l1 _ hx] at hl'
    exact w2 l1 ln' c hl' hlocal hws cn hcn

theorem getLinkKey_setIsleaf (st : St) (l : LinkId) (b : Bool) (ln : LinkNode)
    (hln : st.link l = some ln) :
    getLinkKey (setLinkNode st l (fun x => { x with isleaf := b })) l = ln.key := by
  unfold getLinkKey
  rw [setLinkNode_link_same, hln]
  rfl

/-- Everything `RecurseCommit` guarantees at fuel `f`: the frame, sink
extension, preservation of the workspace invariant, the
children-before-parents order, the key law, and — when the committed root
was modified — the hash outcome with the parent-link fix-up. -/
def rcPost (f : Nat) : Prop :=
  ∀ env st sink r st' sink', RecurseCommit f env st sink r = some (st', sink') →
    wfC st sink →
    RcFrame st st' ∧ (∃ d, sink' = sink ++ d) ∧ wfC st' sink' ∧
    (∀ ks, orderedFrom st.hashedElements ks sink →
      orderedFrom st.hashedElements ks sink') ∧
    (keyLaw env sink → keyLaw env sink') ∧
    (∀ n, st.node r = some n → n.modified = true →
      ∃ kr, kr.isHash = true ∧
        (∃ nx, st'.node r = some nx ∧ nx.myId = kr ∧ nx.modified = false) ∧
        sinkHasKey sink' kr = true ∧
        (∀ l, l ∈ n.parentLinks → ∀ ln', st'.link l = some ln' → ln'.key = kr))

/-- The analogous guarantees of the child loop, plus the soundness of the
accumulated child keys. -/
def rcChildrenPost (f : Nat) : Prop :=
  ∀ env st sink ls acc st' sink' acc',
    rcChildren f env st sink ls acc = some (st', sink', acc') →
    wfC st sink →
    RcFrame st st' ∧ (∃ d, sink' = sink ++ d) ∧ wfC st' sink' ∧
    (∀ ks, orderedFrom st.hashedElements ks sink →
      orderedFrom st.hashedElements ks sink') ∧
    (keyLaw env sink → keyLaw env sink') ∧
    ((∀ ck, ck ∈ acc → goodCk st sink ck) → ∀ ck, ck ∈ acc' → goodCk st' sink' ck)

theorem rcPost_zero : rcPost 0 := by
  intro env st sink r st' sink' hout
  rw [rc_zero] at hout
  cases hout

theorem rcChildrenPost_of (f : Nat) (hP : rcPost f) : rcChildrenPost f := by
  intro env st sink ls
  induction ls generalizing st sink with
  | nil =>
    intro acc st' sink' acc' hout hwf
    rw [rcChildren_nil] at hout
    cases hout
    exact ⟨RcFrame.rcRefl st, ⟨[], by simp⟩, hwf, fun ks h => h, fun h => h, fun h => h⟩
  | cons l tl ih =>
    intro acc st' sink' acc' hout hwf
    rw [rcChildren_cons] at hout
    cases hln : st.link l with
    | none => rw [hln] at hout; cases hout
    | some ln =>
      rw [hln] at hout
      dsimp only at hout
      cases hmemo : st.hashedElements ln.key with
      | some cse =>
        rw [hmemo] at hout
        dsimp only at hout
        have hwf1 : wfC (setLinkNode st l (fun x => { x with isleaf := cse.isleaf }))
            sink := wfC_setIsleaf st sink l cse.isleaf hwf
        obtain ⟨fr, ext, wf2, ord, law, accg⟩ :=
          ih _ sink _ st' sink' acc' hout hwf1
        refine ⟨RcFrame.rcTrans (RcFrame.setLinkAny st l
          (fun x => { x with isleaf := cse.isleaf }) (fun x => ⟨rfl, rfl⟩)) fr,
          ext, wf2, ord, law, ?_⟩
        intro hacc
        apply accg
        intro ck hck
        cases seAddKey_mem _ _ _ hck with
        | inl h => exact hacc ck h
        | inr h =>
          subst h
          rw [getLinkKey_setIsleaf st l cse.isleaf ln hln]
          refine ⟨hwf.2.2.2.1 ln.key (by rw [hmemo]; rfl), Or.inl ?_⟩
          show (st.hashedElements ln.key).isSome = true
          rw [hmemo]
          rfl
      | none =>
        rw [hmemo] at hout
        dsimp only at hout
        cases hws : st.workspace ln.key with
        | none => rw [hws] at hout; cases hout
        | some c =>
          rw [hws] at hout
          dsimp only at hout
          cases hcn : st.node c with
          | none => rw [hcn] at hout; cases hout
          | some cn =>
            rw [hcn] at hout
            dsimp only at hout
            have hwf1 : wfC (setLinkNode st l
                (fun x => { x with isleaf := cn.childLinks.isEmpty })) sink :=
              wfC_setIsleaf st sink l cn.childLinks.isEmpty hwf
            cases hrc : RecurseCommit f env (setLinkNode st l
                (fun x => { x with isleaf := cn.childLinks.isEmpty })) sink c with
            | none => rw [hrc] at hout; cases hout
            | some p =>
              obtain ⟨st2, sink2⟩ := p
              rw [hrc] at hout
              dsimp only at hout
              obtain ⟨fr12, ext12, wf2, ord12, law12, outF⟩ :=
                hP env _ sink c st2 sink2 hrc hwf1
              have hhe2 : st2.hashedElements = st.hashedElements := fr12.he
              have hcn1 : (setLinkNode st l
                  (fun x => { x with isleaf := cn.childLinks.isEmpty })).node c =
                  some cn := hcn
              have hgood2 : goodCk st2 sink2 (getLinkKey st2 l) := by
                cases hmod : cn.modified with
                | false =>
                  cases f with
                  | zero => rw [rc_zero] at hrc; cases hrc
                  | succ g =>
                    rw [rc_noop g env _ sink c cn hcn1 hmod] at hrc
                    cases hrc
                    rw [getLinkKey_setIsleaf st l cn.childLinks.isEmpty ln hln]
                    obtain ⟨cn2, hcn2, hmy⟩ := hwf.1 ln.key c hws
                    rw [hcn] at hcn2
                    cases hcn2
                    obtain ⟨hh, hor⟩ := hwf.2.2.1 c cn hcn hmod
                    rw [hmy] at hh hor
                    exact ⟨hh, hor⟩
                | true =>
                  obtain ⟨kc, hkch, _, hsink2, hkeys⟩ := outF cn hcn1 hmod
                  have hl1 : (setLinkNode st l
                      (fun x => { x with isleaf := cn.childLinks.isEmpty })).link l =
                      some { ln with isleaf := cn.childLinks.isEmpty } := by
                    rw [setLinkNode_link_same, hln]
                    rfl
                  have hlocal : ln.key.isHash = false := by
                    obtain ⟨cn2, hcn2, hmy⟩ := hwf.1 ln.key c hws
                    rw [hcn] at hcn2
                    cases hcn2
                    rw [← hmy]
                    exact hwf.2.2.2.2 c cn hcn hmod
                  have hmem : l ∈ cn.parentLinks :=
                    hwf1.2.1 l { ln with isleaf := cn.childLinks.isEmpty } c hl1
                      hlocal hws cn hcn1
                  have hdom : (st2.link l).isSome = true := by
                    rw [fr12.linkDom, hl1]
                    rfl
                  cases hln2 : st2.link l with
                  | none => rw [hln2] at hdom; cases hdom
                  | some ln2 =>
                    have hkey2 : ln2.key = kc := hkeys l hmem ln2 hln2
                    have hgk : getLinkKey st2 l = kc := by
                      unfold getLinkKey
                      rw [hln2]
                      exact hkey2
                    rw [hgk]
                    exact ⟨hkch, Or.inr hsink2⟩
              obtain ⟨fr23, ext23, wf3, ord23, law23, accg23⟩ :=
                ih st2 sink2 _ st' sink' acc' hout wf2
              rw [hhe2] at ord23
              refine ⟨RcFrame.rcTrans (RcFrame.setLinkAny st l
                (fun x => { x with isleaf := cn.childLinks.isEmpty })
                (fun x => ⟨rfl, rfl⟩)) (RcFrame.rcTrans fr12 fr23), ?_, wf3,
                fun ks h => ord23 ks (ord12 ks h), fun h => law23 (law12 h), ?_⟩
              · obtain ⟨d1, hd1⟩ := ext12
                obtain ⟨d2, hd2⟩ := ext23
                exact ⟨d1 ++ d2, by rw [hd2, hd1, List.append_assoc]⟩
              · intro hacc
                apply accg23
                intro ck hck
                cases seAddKey_mem _ _ _ hck with
                | inl h =>
                  exact goodCk_mono st st2 sink sink2 ck hhe2 ext12 (hacc ck h)
                | inr h =>
                  subst h
                  exact hgood2

theorem rcPost_succ (f : Nat) (hQ : rcChildrenPost f) : rcPost (f + 1) := by
  intro env st sink r st' sink' hout hwf
  cases hn : st.node r with
  | none => rw [rc_none f env st sink r hn] at hout; cases hout
  | some n =>
    cases hm : n.modified with
    | false =>
      rw [rc_noop f env st sink r n hn hm] at hout
      cases hout
      refine ⟨RcFrame.rcRefl st, ⟨[], by simp⟩, hwf, fun ks h => h, fun h => h, ?_⟩
      intro n0 hn0 hm0
      cases hn0
      simp [hm] at hm0
    | true =>
      rw [rc_succ_mod f env st sink r n hn hm] at hout
      cases hch : rcChildren f env st sink n.childLinks [] with
      | none => rw [hch] at hout; cases hout
      | some q =>
        obtain ⟨st1, sink1, childKeys⟩ := q
        rw [hch] at hout
        dsimp only at hout
        cases hn1 : st1.node r with
        | none => rw [hn1] at hout; cases hout
        | some n1 =>
          rw [hn1] at hout
          dsimp only at hout
          cases hout
          obtain ⟨fr01, ext01, wf1, ord01, law01, accg⟩ :=
            hQ env st sink n.childLinks [] st1 sink1 childKeys hch hwf
          have hgoodCK : ∀ ck, ck ∈ childKeys → goodCk st1 sink1 ck :=
            accg (fun ck h => absurd h (List.not_mem_nil ck))
          have hkh : (rcSe env st1 n1 childKeys).key.isHash = true := rfl
          have hparentEq : n1.parentLinks = n.parentLinks := by
            obtain ⟨nx, hnx, _, hpl, _⟩ := fr01.nodeFields r n1 hn1
            rw [hn] at hnx
            cases hnx
            exact hpl
          refine ⟨RcFrame.rcTrans fr01 (rcFinishSt_frame st1 r n1 _), ?_, ?_, ?_, ?_, ?_⟩
          · obtain ⟨d1, hd1⟩ := ext01
            exact ⟨d1 ++ [((rcSe env st1 n1 childKeys).key, rcSe env st1 n1 childKeys)],
              by rw [hd1, List.append_assoc]⟩
          · exact rc_finish_wfC st1 sink1 r n1 _ _ hn1 wf1 hkh
          · intro ks hord
            refine orderedFrom_append_one st.hashedElements ks sink1 _ _
              (ord01 ks hord) ?_
            intro ck hck
            obtain ⟨h1, h2⟩ := hgoodCK ck hck
            refine ⟨h1, ?_⟩
            rw [fr01.he] at h2
            cases h2 with
            | inl h => exact Or.inl h
            | inr h =>
              right
              rw [List.mem_append]
              exact Or.inr (sinkHasKey_mem sink1 ck h)
          · intro hlaw
            exact keyLaw_append_one env sink1 _ _ (law01 hlaw) rfl rfl
          · intro n0 hn0 hm0
            cases hn0
            refine ⟨(rcSe env st1 n1 childKeys).key, hkh,
              ⟨{ n1 with myId := (rcSe env st1 n1 childKeys).key, modified := false },
                rcFinishSt_node_r st1 r n1 _ hn1, rfl, rfl⟩,
              sinkHasKey_append_last sink1 _ _, ?_⟩
            intro l hl ln' hln'
            exact rcFinishSt_parent_keys st1 r n1 _ hn1 l
              (hparentEq ▸ hl) ln' hln'

/-- The full commit guarantee, at every fuel. -/
theorem rcPost_all : ∀ f : Nat, rcPost f ∧ rcChildrenPost f := by
  intro f
  induction f with
  | zero => exact ⟨rcPost_zero, rcChildrenPost_of 0 rcPost_zero⟩
  | succ f ih =>
    have hP := rcPost_succ f ih.2
    exact ⟨hP, rcChildrenPost_of (f + 1) hP⟩

/-- In an ordered sink every recorded child key is a hash key. -/
theorem orderedFrom_isHash (he : WId → Option SE) :
    ∀ (s : Sink) (ks : List WId), orderedFrom he ks s →
      ∀ p ∈ s, ∀ ck ∈ p.2.childKeys, ck.isHash = true := by
  intro s
  induction s with
  | nil =>
    intro ks h p hp
    cases hp
  | cons hd tl ih =>
    intro ks h p hp ck hck
    obtain ⟨k, se⟩ := hd
    obtain ⟨h1, h2⟩ := h
    rcases List.mem_cons.mp hp with hp | hp
    · cases hp
      exact (h1 ck hck).1
    · exact ih (ks ++ [k]) h2 p hp ck hck

/-- C1: every `StructureElement` a successful `RecurseCommit` adds to the
sink is stored under the content key
`sha1(sha1(serialized value) ++ serialize(type))`, which is also the
element's own `key` field; that key is a pure function of the serialized
value and the type; and after the commit the root is unmodified, so a
second commit of the same subtree is a no-op returning the identical
state — in particular the identical key. -/
theorem C1_content_key_law (f : Nat) (env : Env) (st st' : St) (r : RootId)
    (sink' : Sink)
    (hrc : RecurseCommit f env st [] r = some (st', sink'))
    (hwf : wfC st []) :
    (∀ p ∈ sink',
      p.1 = WId.hash (env.sha1 (env.sha1 p.2.value ++ env.serType p.2.typ)) ∧
      p.2.key = p.1) ∧
    (∀ se1 se2 : SE, se1.value = se2.value → se1.typ = se2.typ →
      seSha1 env se1 = seSha1 env se2) ∧
    (∃ n', st'.node r = some n' ∧ n'.modified = false ∧
      ∀ g sink2, RecurseCommit (g + 1) env st' sink2 r = some (st', sink2)) := by
  obtain ⟨hfr, hext, hwf', hord, hkl, hF⟩ :=
    (rcPost_all f).1 env st [] r st' sink' hrc hwf
  have hlaw : keyLaw env sink' := by
    apply hkl
    intro p hp
    cases hp
  refine ⟨?_, ?_, ?_⟩
  · intro p hp
    simpa [seSha1] using hlaw p hp
  · intro se1 se2 hv ht
    simp [seSha1, hv, ht]
  · cases f with
    | zero =>
      rw [rc_zero] at hrc
      cases hrc
    | succ f0 =>
      cases hn : st.node r with
      | none =>
        rw [rc_none f0 env st [] r hn] at hrc
        cases hrc
      | some n =>
        by_cases hm : n.modified = true
        · obtain ⟨kr, hkh, ⟨nx, hnx, hmy, hmod⟩, hsk2, hpar⟩ := hF n hn hm
          exact ⟨nx, hnx, hmod,
            fun g sink2 => rc_noop g env st' sink2 r nx hnx hmod⟩
        · have hm' : n.modified = false := by
            cases hmb : n.modified
            · rfl
            · exact absurd hmb hm
          rw [rc_noop f0 env st [] r n hn hm'] at hrc
          have h2 : (st, ([] : Sink)) = (st', sink') := Option.some.inj hrc
          have hst : st' = st := (congrArg Prod.fst h2).symm
          have hsk : sink' = ([] : Sink) := (congrArg Prod.snd h2).symm
          subst hst
          exact ⟨n, hn, hm', fun g sink2 => rc_noop g env st' sink2 r n hn hm'⟩

/-- C2: a successful `RecurseCommit` into an empty sink produces a
children-before-parent log — every element's recorded `ChildLinks` keys
are hash keys (never a transient local id) that are either already
memoized in `_hashed_elements` or the key of an element committed earlier
in the sink. -/
theorem C2_children_before_parent (f : Nat) (env : Env) (st st' : St)
    (r : RootId) (sink' : Sink)
    (hrc : RecurseCommit f env st [] r = some (st', sink'))
    (hwf : wfC st []) :
    orderedFrom st.hashedElements [] sink' ∧
    (∀ p ∈ sink', ∀ ck ∈ p.2.childKeys, ck.isHash = true) := by
  obtain ⟨hfr, hext, hwf', hord, hkl, hF⟩ :=
    (rcPost_all f).1 env st [] r st' sink' hrc hwf
  have h1 : orderedFrom st.hashedElements [] sink' := by
    apply hord
    simp [orderedFrom]
  exact ⟨h1, orderedFrom_isHash st.hashedElements sink' [] h1⟩

/-! Concrete commit run used by the C1 and C2 witnesses. -/

/-- A concrete hashing environment for the commit witnesses. -/
def envW : Env :=
  { sha1 := fun l => 1 :: l,
    serType := fun t => [t.object_id, t.version],
    serValue := fun p ks => [p.length, ks.length] }

/-- A modified child root (id 0) pointed at by link 10 of parent 1. -/
def cNodeB : RootNode :=
  { myId := WId.loc 2, modified := true, readOnly := false, childLinks := [],
    parentLinks := [10], objType := ⟨20001, 1⟩, payload := [], fieldNames := [],
    linkFields := [] }

/-- The modified parent root (id 1) holding link 10. -/
def cNodeC : RootNode :=
  { myId := WId.loc 3, modified := true, readOnly := false, childLinks := [10],
    parentLinks := [], objType := ⟨20002, 1⟩, payload := [], fieldNames := [],
    linkFields := [] }

/-- The link wrapper (id 10) inside root 1 pointing at root 0. -/
def cLinkB : LinkNode :=
  { owner := 1, key := WId.loc 2, isleaf := false, isLinkMsg := true }

/-- Two modified nodes: child 0 referenced by parent 1 through link 10. -/
def cStB : St :=
  { node := fun x => if x = 0 then some cNodeB else
      if x = 1 then some cNodeC else none,
    link := fun l => if l = 10 then some cLinkB else none,
    workspace := fun k => if k = WId.loc 2 then some 0 else
      if k = WId.loc 3 then some 1 else none,
    counter := 4,
    hashedElements := fun _ => none,
    workspaceRoot := 7 }

theorem cStB_wfC : wfC cStB [] := by
  refine ⟨?_, ?_, ?_, ?_, ?_⟩
  · intro k c h
    revert h
    show (if k = WId.loc 2 then some 0 else
      if k = WId.loc 3 then some 1 else none) = some c → _
    split_ifs with h2 h3
    · intro h
      cases h
      exact ⟨cNodeB, rfl, h2.symm⟩
    · intro h
      cases h
      exact ⟨cNodeC, rfl, h3.symm⟩
    · intro h
      cases h
  · intro l ln c hl hh hw cn hc
    revert hl
    show (if l = 10 then some cLinkB else none) = some ln → _
    split_ifs with h10
    · intro hl
      cases hl
      revert hw
      show (if (WId.loc 2 : WId) = WId.loc 2 then some 0 else
        if (WId.loc 2 : WId) = WId.loc 3 then some 1 else none) = some c → _
      rw [if_pos rfl]
      intro hw
      cases hw
      revert hc
      show (if (0 : Nat) = 0 then some cNodeB else
        if (0 : Nat) = 1 then some cNodeC else none) = some cn → _
      rw [if_pos rfl]
      intro hc
      cases hc
      subst h10
      show (10 : LinkId) ∈ cNodeB.parentLinks
      simp [cNodeB]
    · intro hl
      cases hl
  · intro x nx hx hmod
    revert hx
    show (if x = 0 then some cNodeB else
      if x = 1 then some cNodeC else none) = some nx → _
    split_ifs
    · intro hx
      cases hx
      cases hmod
    · intro hx
      cases hx
      cases hmod
    · intro hx
      cases hx
  · intro k h
    simp [cStB] at h
  · intro x nx hx hmod
    revert hx
    show (if x = 0 then some cNodeB else
      if x = 1 then some cNodeC else none) = some nx → _
    split_ifs
    · intro hx
      cases hx
      rfl
    · intro hx
      cases hx
      rfl
    · intro hx
      cases hx

/-- The concrete commit run of root 1 (fuel 2 suffices for the two-level
tree). -/
def rcResC : St × Sink := (RecurseCommit 2 envW cStB [] 1).getD (cStB, [])

theorem rcResC_eq : RecurseCommit 2 envW cStB [] 1 = some rcResC := rfl

/-- Witness for C1 on the concrete two-node commit: the key law holds of
every produced element, the key is pure in (value, type), and the
immediate recommit of the now-unmodified root returns the identical
state. -/
theorem C1_content_key_law_witness :
    (∀ p ∈ rcResC.2,
      p.1 = WId.hash (envW.sha1 (envW.sha1 p.2.value ++ envW.serType p.2.typ)) ∧
      p.2.key = p.1) ∧
    (∃ n', rcResC.1.node 1 = some n' ∧ n'.modified = false ∧
      RecurseCommit 1 envW rcResC.1 [] 1 = some (rcResC.1, [])) := by
  obtain ⟨h1, h2, n', hn', hmod, hre⟩ :=
    C1_content_key_law 2 envW cStB rcResC.1 1 rcResC.2 rcResC_eq cStB_wfC
  exact ⟨h1, n', hn', hmod, hre 0 []⟩

/-- Witness for C2 on the concrete two-node commit: the produced sink is
children-before-parent ordered and every recorded child key is a hash. -/
theorem C2_children_before_parent_witness :
    orderedFrom cStB.hashedElements [] rcResC.2 ∧
    (∀ p ∈ rcResC.2, ∀ ck ∈ p.2.childKeys, ck.isHash = true) :=
  C2_children_before_parent 2 envW cStB rcResC.1 1 rcResC.2 rcResC_eq cStB_wfC

end RepoModel

/-!
## Invalidation (`Wrapper.Invalidate`, `Wrapper.__getattribute__`)

Shallow embedding of the wrapper-invalidation machinery of
`ion/core/object/gpb_wrapper.py`: the `_invalid` flag, the `_root`
reference, the root's `_derived_wrappers` cache, `Invalidate`
(lines 166-181) and the invalid gate opening `__getattribute__`
(lines 608-615).
-/
namespace InvModel

/-- Identity of one wrapper object. -/
abbrev WrapId := Nat

/-- `OOIObjectError` (the spec's `InvalidatedObjectError`) and the Python
recursion limit, the only failures of this fragment. -/
inductive OErr where
  | ooiObjectErr
  | depthExceeded
deriving DecidableEq

/-- Per-wrapper state: the `_invalid` flag, the `_root` reference (`none`
once nulled) and the values of the root's `_derived_wrappers` cache. -/
structure WState where
  invalid : WrapId → Bool
  root : WrapId → Option WrapId
  derived : WrapId → List WrapId

/-- The nulling block of `Invalidate` (gpb_wrapper.py lines 171-181): the
wrapper's references are cleared (`_derived_wrappers = None`,
`_root = None`, ...) and `_invalid` is set — the only place in
gpb_wrapper.py that ever writes `_invalid` after construction, and it
only writes `True`. -/
def setInvalidated (st : WState) (w : WrapId) : WState :=
  { invalid := fun x => if x = w then true else st.invalid x,
    root := fun x => if x = w then none else st.root x,
    derived := fun x => if x = w then [] else st.derived x }

/-- The `for item in self.DerivedWrappers.values(): item.Invalidate()`
loop, abstracted over the recursive call (a structural-recursion
device). -/
def invFold (inv : WState → WrapId → Except OErr WState) :
    WState → List WrapId → Except OErr WState
  | st, [] => .ok st
  | st, w :: ws =>
    match inv st w with
    | .error e => .error e
    | .ok st1 => invFold inv st1 ws

/-- `Wrapper.Invalidate` (gpb_wrapper.py lines 166-181).  `self.IsRoot`
is an attribute access, so on an already-invalid wrapper it raises
`OOIObjectError` through the `__getattribute__` gate; on a root the
derived wrappers are invalidated first; then the wrapper's own references
are nulled and `_invalid` set.  Fuel exhaustion is Python's recursion
limit. -/
def invalidate : Nat → WState → WrapId → Except OErr WState
  | 0, _, _ => .error .depthExceeded
  | fuel + 1, st, w =>
    if st.invalid w then .error .ooiObjectErr
    else
      match (if st.root w = some w then invFold (invalidate fuel) st (st.derived w)
        else .ok st) with
      | .error e => .error e
      | .ok st1 => .ok (setInvalidated st1 w)

/-- Result of an attribute access, as far as this fragment observes it:
the value of the `Invalid` property, or some other attribute. -/
inductive Attr where
  | flag (b : Bool)
  | other
deriving DecidableEq

/-- The invalid gate of `Wrapper.__getattribute__` (gpb_wrapper.py lines
608-615): on an invalidated wrapper the key `Invalid` returns `True` and
every other key raises `OOIObjectError`; on a valid wrapper resolution
proceeds (the `Invalid` property then reads the `_invalid` flag). -/
def getattrW (st : WState) (w : WrapId) (key : String) : Except OErr Attr :=
  if st.invalid w then
    if key = "Invalid" then .ok (.flag true) else .error .ooiObjectErr
  else
    if key = "Invalid" then .ok (.flag (st.invalid w)) else .ok .other

/-- `invalidate` only ever sets `_invalid`: every flag already set
survives. -/
theorem invalidate_mono : ∀ (g : Nat) (st : WState) (a : WrapId) (st2 : WState),
    invalidate g st a = .ok st2 → ∀ w, st.invalid w = true → st2.invalid w = true := by
  intro g
  induction g with
  | zero =>
    intro st a st2 h
    cases h
  | succ g ih =>
    have hfold : ∀ (ls : List WrapId) (st st2 : WState),
        invFold (invalidate g) st ls = .ok st2 →
        ∀ w, st.invalid w = true → st2.invalid w = true := by
      intro ls
      induction ls with
      | nil =>
        intro st st2 h w hw
        cases h
        exact hw
      | cons b bs ihb =>
        intro st st2 h w hw
        rw [invFold] at h
        cases hb : invalidate g st b with
        | error e =>
          rw [hb] at h
          cases h
        | ok st1 =>
          rw [hb] at h
          dsimp only at h
          exact ihb st1 st2 h w (ih st b st1 hb w hw)
    intro st a st2 h w hw
    rw [invalidate] at h
    by_cases hi : st.invalid a = true
    · rw [if_pos hi] at h
      cases h
    · rw [if_neg hi] at h
      by_cases hr : st.root a = some a
      · rw [if_pos hr] at h
        cases hf : invFold (invalidate g) st (st.derived a) with
        | error e =>
          rw [hf] at h
          cases h
        | ok st1 =>
          rw [hf] at h
          dsimp only at h
          cases h
          show (if w = a then true else st1.invalid w) = true
          split
          · rfl
          · exact hfold (st.derived a) st st1 hf w hw
      · rw [if_neg hr] at h
        dsimp only at h
        cases h
        show (if w = a then true else st.invalid w) = true
        split
        · rfl
        · exact hw

/-- A successful `invalidate` leaves its argument invalid. -/
theorem invalidate_sets (g : Nat) (st : WState) (a : WrapId) (st2 : WState)
    (h : invalidate g st a = .ok st2) : st2.invalid a = true := by
  cases g with
  | zero => cases h
  | succ g =>
    rw [invalidate] at h
    by_cases hi : st.invalid a = true
    · rw [if_pos hi] at h
      cases h
    · rw [if_neg hi] at h
      cases hf : (if st.root a = some a then
          invFold (invalidate g) st (st.derived a) else .ok st) with
      | error e =>
        rw [hf] at h
        cases h
      | ok st1 =>
        rw [hf] at h
        dsimp only at h
        cases h
        show (if a = a then true else st1.invalid a) = true
        rw [if_pos rfl]

/-- After the derived-wrappers loop every visited wrapper is invalid. -/
theorem invFold_sets (g : Nat) :
    ∀ (ls : List WrapId) (st st2 : WState),
    invFold (invalidate g) st ls = .ok st2 →
    ∀ w, w ∈ ls → st2.invalid w = true := by
  intro ls
  induction ls with
  | nil =>
    intro st st2 h w hw
    cases hw
  | cons b bs ihb =>
    intro st st2 h w hw
    rw [invFold] at h
    cases hb : invalidate g st b with
    | error e =>
      rw [hb] at h
      cases h
    | ok st1 =>
      rw [hb] at h
      dsimp only at h
      rcases List.mem_cons.mp hw with hw | hw
      · subst hw
        have h1 : st1.invalid w = true := invalidate_sets g st w st1 hb
        have hfold : ∀ (ms : List WrapId) (sa sb : WState),
            invFold (invalidate g) sa ms = .ok sb →
            ∀ v, sa.invalid v = true → sb.invalid v = true := by
          intro ms
          induction ms with
          | nil =>
            intro sa sb hx v hv
            cases hx
            exact hv
          | cons c cs ihc =>
            intro sa sb hx v hv
            rw [invFold] at hx
            cases hc : invalidate g sa c with
            | error e =>
              rw [hc] at hx
              cases hx
            | ok sc =>
              rw [hc] at hx
              dsimp only at hx
              exact ihc sc sb hx v (invalidate_mono g sa c sc hc v hv)
        exact hfold bs st1 st2 h w h1
      · exact ihb st1 st2 h w hw

/-- C3: invalidating a root wrapper invalidates it and every wrapper in
its `derived_wrappers` cache; on any invalidated wrapper an attribute
access raises `OOIObjectError` for every key except `Invalid`, which
still reads as `true`; and the state is permanent — a later `Invalidate`
(the only writer of the flag) raises on an invalid wrapper and never
clears a set flag anywhere. -/
theorem C3_invalidate_recursive_permanent (f : Nat) (st : WState) (r : WrapId)
    (st' : WState) (hroot : st.root r = some r)
    (hok : invalidate f st r = .ok st') :
    st'.invalid r = true ∧
    (∀ w, w ∈ st.derived r → st'.invalid w = true) ∧
    (∀ w key, st'.invalid w = true →
      (key = "Invalid" → getattrW st' w key = .ok (.flag true)) ∧
      (key ≠ "Invalid" → getattrW st' w key = .error .ooiObjectErr)) ∧
    (∀ g w, st'.invalid w = true → invalidate g st' w = .error .ooiObjectErr ∨
      invalidate g st' w = .error .depthExceeded) ∧
    (∀ g a st2, invalidate g st' a = .ok st2 →
      ∀ w, st'.invalid w = true → st2.invalid w = true) := by
  refine ⟨invalidate_sets f st r st' hok, ?_, ?_, ?_, ?_⟩
  · intro w hw
    cases f with
    | zero => cases hok
    | succ g =>
      rw [invalidate] at hok
      by_cases hi : st.invalid r = true
      · rw [if_pos hi] at hok
        cases hok
      · rw [if_neg hi] at hok
        rw [if_pos hroot] at hok
        cases hf : invFold (invalidate g) st (st.derived r) with
        | error e =>
          rw [hf] at hok
          cases hok
        | ok st1 =>
          rw [hf] at hok
          dsimp only at hok
          cases hok
          have h1 : st1.invalid w = true := invFold_sets g (st.derived r) st st1 hf w hw
          show (if w = r then true else st1.invalid w) = true
          split
          · rfl
          · exact h1
  · intro w key hw
    constructor
    · intro hk
      subst hk
      simp [getattrW, hw]
    · intro hk
      simp [getattrW, hw, hk]
  · intro g w hw
    cases g with
    | zero => right; rfl
    | succ g =>
      left
      rw [invalidate, if_pos hw]
  · intro g a st2 h w hw
    exact invalidate_mono g st' a st2 h w hw

/-- Concrete three-wrapper state for the C3 witness: root 0 caches
derived wrappers 1 and 2, nothing invalid yet. -/
def invSt : WState :=
  { invalid := fun _ => false,
    root := fun x => if x ≤ 2 then some 0 else none,
    derived := fun x => if x = 0 then [1, 2] else [] }

/-- The concrete run of `Invalidate` on root 0 with fuel 2. -/
def invRes : WState :=
  match invalidate 2 invSt 0 with
  | .ok st => st
  | .error _ => invSt

theorem invRes_eq : invalidate 2 invSt 0 = .ok invRes := rfl

/-- Witness for C3 on the concrete state: root 0 and both derived
wrappers end invalid, the gate lets only `Invalid` through (as `true`),
and re-invalidation raises rather than clearing anything. -/
theorem C3_invalidate_recursive_permanent_witness :
    invRes.invalid 0 = true ∧
    (invRes.invalid 1 = true ∧ invRes.invalid 2 = true) ∧
    getattrW invRes 1 "Invalid" = .ok (.flag true) ∧
    getattrW invRes 1 "name" = .error .ooiObjectErr ∧
    (invalidate 5 invRes 0 = .error .ooiObjectErr ∨
      invalidate 5 invRes 0 = .error .depthExceeded) := by
  obtain ⟨h1, h2, h3, h4, h5⟩ :=
    C3_invalidate_recursive_permanent 2 invSt 0 invRes rfl invRes_eq
  refine ⟨h1, ⟨h2 1 (by simp [invSt]), h2 2 (by simp [invSt])⟩, ?_, ?_, ?_⟩
  · exact (h3 1 "Invalid" (h2 1 (by simp [invSt]))).1 rfl
  · exact (h3 1 "name" (h2 1 (by simp [invSt]))).2 (by simp)
  · exact h4 5 0 h1

end InvModel

/-!
## The AIS metadata cache (`MetadataCache`)

Shallow embedding of `ion/integration/ais/common/metadata_cache.py` with
Python attribute semantics made explicit: dictionaries live on a heap of
references, the class body `__metadata = {}` (line 77) binds one
reference in the class attribute, and reading `self.__metadata` (the
name-mangled `_MetadataCache__metadata`) resolves to the instance
attribute when one exists and falls back to the class attribute
otherwise.  `__init__` (lines 79-94) assigns `mc`, `asc`, `rc`, `ac`,
`numDSets`, `numDSources` and `cacheLock` on the instance — never
`__metadata` — and item assignment `self.__metadata[k] = v` mutates the
resolved dictionary in place rather than rebinding the name.
-/
namespace CacheModel

/-- One cached metadata record: its `TYPE` tag (`'dset'` or `'dsource'`)
and the remaining key/value payload. -/
structure Entry where
  typ : String
  payload : List (String × String)
deriving DecidableEq

/-- A Python dictionary keyed by resource identity, in insertion order. -/
abbrev MDict := List (String × Entry)

/-- Dictionary item assignment `d[k] = v`: overwrite in place or append. -/
def dictPut : MDict → String → Entry → MDict
  | [], k, v => [(k, v)]
  | (k0, v0) :: tl, k, v =>
    if k0 = k then (k, v) :: tl else (k0, v0) :: dictPut tl k v

/-- Dictionary `d.pop(k)` (the removal; `deleteDSetMetadata` catches the
`KeyError` of a missing key separately). -/
def dictPop : MDict → String → MDict
  | [], _ => []
  | (k0, v0) :: tl, k => if k0 = k then tl else (k0, v0) :: dictPop tl k

/-- Heap of dictionaries, the class attribute reference, the per-instance
`_MetadataCache__metadata` attribute (absent unless ever assigned) and the
per-instance `numDSets` counter. -/
structure CState where
  heap : Nat → Option MDict
  classMeta : Nat
  instMeta : Nat → Option Nat
  numDSets : Nat → Nat

/-- `MetadataCache.__init__` (metadata_cache.py lines 79-94): the new
instance `i` starts with `numDSets = 0` and no instance-level
`__metadata` attribute. -/
def mcInit (cs : CState) (i : Nat) : CState :=
  { cs with instMeta := fun x => if x = i then none else cs.instMeta x,
            numDSets := fun x => if x = i then 0 else cs.numDSets x }

/-- Python attribute resolution for `self.__metadata`: the instance
attribute if present, else the class attribute (always bound by the class
body, line 77). -/
def resolveMeta (cs : CState) (i : Nat) : Nat :=
  match cs.instMeta i with
  | some r => r
  | none => cs.classMeta

/-- `self.__metadata[dSet.ResourceIdentity] = dSetMetadata`
(metadata_cache.py line 553): an in-place mutation of the resolved
dictionary. -/
def putMeta (cs : CState) (i : Nat) (k : String) (v : Entry) : CState :=
  let r := resolveMeta cs i
  { cs with heap := fun x => if x = r then (cs.heap r).map (fun d => dictPut d k v)
      else cs.heap x }

/-- `self.__metadata.pop(dSetID)` (metadata_cache.py line 255). -/
def popMeta (cs : CState) (i : Nat) (k : String) : CState :=
  let r := resolveMeta cs i
  { cs with heap := fun x => if x = r then (cs.heap r).map (fun d => dictPop d k)
      else cs.heap x }

/-- `MetadataCache.getDatasets` (metadata_cache.py lines 102-107): the
values of the resolved dictionary whose `TYPE` tag is `DSET`. -/
def getDatasets (cs : CState) (i : Nat) : List Entry :=
  match cs.heap (resolveMeta cs i) with
  | none => []
  | some d => (d.filter (fun p => p.2.typ = "dset")).map Prod.snd

theorem dictPut_mem (d : MDict) (k : String) (v : Entry) :
    (k, v) ∈ dictPut d k v := by
  induction d with
  | nil => simp [dictPut]
  | cons hd tl ih =>
    obtain ⟨k0, v0⟩ := hd
    rw [dictPut]
    split
    · exact List.mem_cons_self _ _
    · exact List.mem_cons_of_mem _ ih

/-- `putMeta` and `popMeta` mutate a dictionary on the heap; they never
touch attribute bindings, so name resolution is unchanged. -/
theorem resolveMeta_putMeta (cs : CState) (i j : Nat) (k : String) (v : Entry) :
    resolveMeta (putMeta cs i k v) j = resolveMeta cs j := rfl

theorem resolveMeta_popMeta (cs : CState) (i j : Nat) (k : String) :
    resolveMeta (popMeta cs i k) j = resolveMeta cs j := rfl

/-- Two instances resolving `__metadata` to the same reference read the
same dataset list. -/
theorem getDatasets_eq_of_resolve (cs : CState) (i j : Nat)
    (h : resolveMeta cs i = resolveMeta cs j) :
    getDatasets cs i = getDatasets cs j := by
  rw [getDatasets, getDatasets, h]

/-- C8: the metadata dictionary is one class-level object shared by all
instances.  After constructing any two instances `a` and `b`, both
resolve `__metadata` to the same class-attribute reference; an entry
stored through `a` is observable through `b` via `getDatasets`; and after
any mutation through `a` (a put or a pop) the two instances still read
the identical dataset list — the cache state is not per-instance. -/
theorem C8_shared_class_cache (cs0 cs1 : CState) (a b : Nat) (k k2 : String)
    (v : Entry) (d0 : MDict)
    (hcs1 : cs1 = mcInit (mcInit cs0 a) b)
    (hd : cs0.heap cs0.classMeta = some d0)
    (ht : v.typ = "dset") :
    (resolveMeta cs1 a = cs0.classMeta ∧ resolveMeta cs1 b = cs0.classMeta) ∧
    v ∈ getDatasets (putMeta cs1 a k v) b ∧
    getDatasets (putMeta cs1 a k v) a = getDatasets (putMeta cs1 a k v) b ∧
    getDatasets (popMeta cs1 a k2) a = getDatasets (popMeta cs1 a k2) b := by
  have hra : resolveMeta cs1 a = cs0.classMeta := by
    subst hcs1
    simp [resolveMeta, mcInit]
  have hrb : resolveMeta cs1 b = cs0.classMeta := by
    subst hcs1
    simp [resolveMeta, mcInit]
  have hh1 : cs1.heap = cs0.heap := by
    subst hcs1
    rfl
  refine ⟨⟨hra, hrb⟩, ?_, ?_, ?_⟩
  · have hheap2 : (putMeta cs1 a k v).heap (resolveMeta (putMeta cs1 a k v) b) =
        some (dictPut d0 k v) := by
      rw [resolveMeta_putMeta, hrb]
      show (if cs0.classMeta = resolveMeta cs1 a then
          (cs1.heap (resolveMeta cs1 a)).map (fun d => dictPut d k v)
        else cs1.heap cs0.classMeta) = some (dictPut d0 k v)
      rw [hra, if_pos rfl, hh1, hd]
      rfl
    rw [getDatasets, hheap2]
    exact List.mem_map.mpr ⟨(k, v), List.mem_filter.mpr ⟨dictPut_mem d0 k v,
      by simp [ht]⟩, rfl⟩
  · exact getDatasets_eq_of_resolve _ a b (by
      rw [resolveMeta_putMeta, resolveMeta_putMeta, hra, hrb])
  · exact getDatasets_eq_of_resolve _ a b (by
      rw [resolveMeta_popMeta, resolveMeta_popMeta, hra, hrb])

/-- Concrete state for the C8 witness: the freshly created class with its
single empty class-level dictionary at heap slot 0. -/
def mcClassSt : CState :=
  { heap := fun r => if r = 0 then some [] else none,
    classMeta := 0,
    instMeta := fun _ => none,
    numDSets := fun _ => 0 }

/-- The concrete dataset record stored through instance 1. -/
def dsEntry : Entry := { typ := "dset", payload := [("key", "ds1")] }

/-- Witness for C8: constructing instances 1 and 2 of the fresh class,
both resolve the cache to slot 0, and the record stored through instance
1 is returned by instance 2's `getDatasets`. -/
theorem C8_shared_class_cache_witness :
    (resolveMeta (mcInit (mcInit mcClassSt 1) 2) 1 = 0 ∧
      resolveMeta (mcInit (mcInit mcClassSt 1) 2) 2 = 0) ∧
    dsEntry ∈ getDatasets
      (putMeta (mcInit (mcInit mcClassSt 1) 2) 1 "ds1" dsEntry) 2 := by
  obtain ⟨h1, h2, h3, h4⟩ := C8_shared_class_cache mcClassSt
    (mcInit (mcInit mcClassSt 1) 2) 1 2 "ds1" "x" dsEntry [] rfl rfl rfl
  exact ⟨h1, h2⟩

end CacheModel

/-!
## Repeated-field deletion bookkeeping (`ContainerWrapper.__delitem__`,
`Wrapper.ClearField`, `Wrapper._clear_derived_message`)

Shallow embedding of the repeated-field machinery of
`ion/core/object/gpb_wrapper.py` around one root wrapper holding a
repeated composite field of CASRef-Link elements (the `_clear_derived_message`
recursion is modelled over the Link schema — the fields `key`, `type`,
`isleaf` — which is the schema the claims concern; `type` is a submessage,
so its `ClearField` first `_rewrap`s it into `DerivedWrappers` and then
deletes that fresh entry).  `DerivedWrappers` is abstracted by the set of
its integer keys (`obj.__hash__()` values), list containers by lists, and
the `ParentLinks`/`ChildLinks` sets by duplicate-free lists.
-/
namespace TreeModel

/-- Identity of a target (child) root wrapper. -/
abbrev TId := Nat

/-- Identity of a link wrapper. -/
abbrev LId := Nat

/-- `KeyError` (an unguarded `del`/`remove` on a missing key),
`IndexError` and the repository's unresolved-link failure. -/
inductive TErr where
  | keyErr
  | indexErr
  | unresolved
deriving DecidableEq

/-- One element of the repeated composite field: the GPB object hash of
the element message, the hash of its `type` submessage, and the link
wrapper identity it rewraps to. -/
structure Item where
  hash : Nat
  typeHash : Nat
  lid : LId
deriving DecidableEq

/-- Root-wrapper fragment: the root's `Modified` flag, its `_child_links`
set, each target's `ParentLinks` set, resolution of links to their target
(`Repository.get_linked_object`), whether a wrapper's `ObjectType` is the
Link type, the repeated composite container, and the key set of the
root's `DerivedWrappers` cache. -/
structure TState where
  modified : Bool
  childLinks : List LId
  tgtParent : TId → List LId
  linkTarget : LId → Option TId
  isLink : LId → Bool
  container : List Item
  dw : Nat → Bool

/-- `Wrapper._clear_derived_message` (gpb_wrapper.py lines 901-915) on a
rewrapped element.  For a Link element: resolve the child
(`get_linked_object`; failure raises), `child_obj.ParentLinks.remove(self)`
and `self.ChildLinks.remove(self)` (Python set `remove` raises `KeyError`
on a missing member), then `ClearField` over the Link schema fields —
`key` and `isleaf` are singular scalars with no cache entry, and the
`type` submessage is `_rewrap`ped into `DerivedWrappers` and then deleted
again, so its key ends absent.  A non-Link element does no set
bookkeeping here (its schema recursion is outside this fragment). -/
def clearDerivedMsgLink (st : TState) (it : Item) : Except TErr TState :=
  if st.isLink it.lid then
    match st.linkTarget it.lid with
    | none => .error .unresolved
    | some t =>
      if it.lid ∈ st.tgtParent t then
        let st1 := { st with tgtParent := fun x =>
          if x = t then (st.tgtParent t).erase it.lid else st.tgtParent x }
        if it.lid ∈ st1.childLinks then
          .ok { st1 with
            childLinks := st1.childLinks.erase it.lid,
            dw := fun h => if h = it.typeHash then false else st1.dw h,
            modified := true }
        else .error .keyErr
      else .error .keyErr
  else .ok st

/-- `ContainerWrapper.__delitem__` (gpb_wrapper.py lines 1112-1123):
mark the tree modified, fetch and `_rewrap` the element (which inserts
its hash into `DerivedWrappers` when absent), run
`_clear_derived_message` on it, and delete the element from the
underlying container. -/
def delItem (st : TState) (idx : Nat) : Except TErr TState :=
  let st0 : TState := { st with modified := true }
  match st0.container.get? idx with
  | none => .error .indexErr
  | some it =>
    let st1 : TState := { st0 with dw := fun x =>
      if x = it.hash then true else st0.dw x }
    match clearDerivedMsgLink st1 it with
    | .error e => .error e
    | .ok st2 => .ok { st2 with container := st2.container.eraseIdx idx }

/-- `Wrapper.ClearField`, `RepeatedScalarFieldContainer` branch
(gpb_wrapper.py lines 873-876): `objhash = GPBField.__hash__();
del self.DerivedWrappers[objhash]` with no presence check, then the GPB
clear and `_set_parents_modified`. -/
def clearFieldRepeatedScalar (st : TState) (cHash : Nat) : Except TErr TState :=
  if st.dw cHash then
    .ok { st with
      dw := fun x => if x = cHash then false else st.dw x,
      modified := true }
  else .error .keyErr

/-- The `for item in GPBField` loop of the `RepeatedCompositeFieldContainer`
branch of `ClearField` (gpb_wrapper.py lines 879-885): each element is
`_rewrap`ped (inserting its hash), cleared via `_clear_derived_message`,
and its hash deleted again. -/
def clearFieldLoop : TState → List Item → Except TErr TState
  | st, [] => .ok st
  | st, it :: its =>
    let st1 : TState := { st with dw := fun x =>
      if x = it.hash then true else st.dw x }
    match clearDerivedMsgLink st1 it with
    | .error e => .error e
    | .ok st2 =>
      if st2.dw it.hash then
        clearFieldLoop { st2 with dw := fun x =>
          if x = it.hash then false else st2.dw x } its
      else .error .keyErr

/-- `Wrapper.ClearField`, `RepeatedCompositeFieldContainer` branch
(gpb_wrapper.py lines 878-887): the element loop, then
`objhash = GPBField.__hash__(); del self.DerivedWrappers[objhash]` on the
container's own hash — unguarded, and nothing in the branch ever inserts
that hash (only `ContainerWrapper.factory`, i.e. a prior access through
this wrapper, does). -/
def clearFieldRepeatedComposite (st : TState) (cHash : Nat)
    (items : List Item) : Except TErr TState :=
  match clearFieldLoop st items with
  | .error e => .error e
  | .ok st1 =>
    if st1.dw cHash then
      .ok { st1 with
        dw := fun x => if x = cHash then false else st1.dw x,
        modified := true }
    else .error .keyErr

/-- `_clear_derived_message` touches the cache only at the element's
`type`-submessage hash. -/
theorem clearDerivedMsgLink_dw (st : TState) (it : Item) (st2 : TState)
    (h : clearDerivedMsgLink st it = .ok st2) :
    ∀ x, x ≠ it.typeHash → st2.dw x = st.dw x := by
  intro x hx
  rw [clearDerivedMsgLink] at h
  by_cases hl : st.isLink it.lid = true
  · rw [if_pos hl] at h
    cases ht : st.linkTarget it.lid with
    | none =>
      rw [ht] at h
      cases h
    | some t =>
      rw [ht] at h
      dsimp only at h
      split at h
      · split at h
        · cases h
          show (if x = it.typeHash then false else st.dw x) = st.dw x
          rw [if_neg hx]
        · cases h
      · cases h
  · rw [if_neg hl] at h
    cases h
    rfl

/-- The element loop touches the cache only at the elements' own and
`type`-submessage hashes. -/
theorem clearFieldLoop_dw :
    ∀ (items : List Item) (st st1 : TState),
    clearFieldLoop st items = .ok st1 →
    ∀ x, (∀ it ∈ items, it.hash ≠ x ∧ it.typeHash ≠ x) →
    st1.dw x = st.dw x := by
  intro items
  induction items with
  | nil =>
    intro st st1 h x hx
    cases h
    rfl
  | cons it its ih =>
    intro st st1 h x hx
    rw [clearFieldLoop] at h
    cases hc : clearDerivedMsgLink
        { st with dw := fun y => if y = it.hash then true else st.dw y } it with
    | error e =>
      rw [hc] at h
      cases h
    | ok st2 =>
      rw [hc] at h
      dsimp only at h
      split at h
      · have h2 := ih _ _ h x (fun j hj => hx j (List.mem_cons_of_mem it hj))
        rw [h2]
        have h3 := clearDerivedMsgLink_dw _ it st2 hc x
          (fun he => ((hx it (List.mem_cons_self it its)).2 he.symm).elim)
        show (if x = it.hash then false else st2.dw x) = st.dw x
        rw [if_neg (fun he => ((hx it (List.mem_cons_self it its)).1 he.symm).elim), h3]
        show (if x = it.hash then true else st.dw x) = st.dw x
        rw [if_neg (fun he => ((hx it (List.mem_cons_self it its)).1 he.symm).elim)]
      · cases h

/-- C7: deleting a Link element of a repeated composite field through the
container's `__delitem__` removes exactly one entry from the root's
`ChildLinks` set and exactly one entry from the target's `ParentLinks`
set — both become the `erase` of their old value, so each length drops by
exactly one — and removes the element itself from the container. -/
theorem C7_delitem_bookkeeping (st : TState) (idx : Nat) (it : Item)
    (t : TId) (st' : TState)
    (hidx : st.container.get? idx = some it)
    (hlink : st.isLink it.lid = true)
    (htgt : st.linkTarget it.lid = some t)
    (hok : delItem st idx = .ok st') :
    st'.childLinks = st.childLinks.erase it.lid ∧
    st'.tgtParent t = (st.tgtParent t).erase it.lid ∧
    st'.childLinks.length + 1 = st.childLinks.length ∧
    (st'.tgtParent t).length + 1 = (st.tgtParent t).length ∧
    st'.container = st.container.eraseIdx idx ∧
    st'.modified = true := by
  rw [delItem, hidx] at hok
  dsimp only at hok
  rw [clearDerivedMsgLink] at hok
  dsimp only at hok
  rw [if_pos hlink, htgt] at hok
  dsimp only at hok
  by_cases hp : it.lid ∈ st.tgtParent t
  · rw [if_pos hp] at hok
    by_cases hc : it.lid ∈ st.childLinks
    · rw [if_pos hc] at hok
      dsimp only at hok
      cases hok
      refine ⟨rfl, ?_, ?_, ?_, rfl, rfl⟩
      · show (if t = t then (st.tgtParent t).erase it.lid else st.tgtParent t) = _
        rw [if_pos rfl]
      · exact List.length_erase_add_one hc
      · show ((if t = t then (st.tgtParent t).erase it.lid
          else st.tgtParent t)).length + 1 = _
        rw [if_pos rfl]
        exact List.length_erase_add_one hp
    · rw [if_neg hc] at hok
      cases hok
  · rw [if_neg hp] at hok
    cases hok

/-- C10: on a wrapper whose repeated field's container wrapper was never
created (its hash absent from `DerivedWrappers`), `ClearField` raises
`KeyError`: directly for a repeated scalar field, and after the (cache-
neutral elsewhere) element loop for a repeated composite field of Link
elements whose hashes differ from the container's. -/
theorem C10_clearfield_keyerror (st : TState) (cHash : Nat)
    (items : List Item)
    (habs : st.dw cHash = false)
    (hni : ∀ it ∈ items, it.hash ≠ cHash ∧ it.typeHash ≠ cHash) :
    clearFieldRepeatedScalar st cHash = .error .keyErr ∧
    ∀ st1, clearFieldLoop st items = .ok st1 →
      clearFieldRepeatedComposite st cHash items = .error .keyErr := by
  constructor
  · rw [clearFieldRepeatedScalar,
      if_neg (show ¬ st.dw cHash = true by rw [habs]; exact Bool.false_ne_true)]
  · intro st1 hloop
    rw [clearFieldRepeatedComposite, hloop]
    dsimp only
    rw [if_neg (show ¬ st1.dw cHash = true by
      rw [clearFieldLoop_dw items st st1 hloop cHash hni, habs]
      exact Bool.false_ne_true)]

/-- Concrete state for the C7 witness: one Link element (link wrapper 5,
element hash 100, `type` hash 101) pointing at target 0; the container
wrapper itself was created with hash 200. -/
def tSt : TState :=
  { modified := false,
    childLinks := [5],
    tgtParent := fun t => if t = 0 then [5] else [],
    linkTarget := fun l => if l = 5 then some 0 else none,
    isLink := fun l => if l = 5 then true else false,
    container := [⟨100, 101, 5⟩],
    dw := fun h => if h = 200 then true else false }

/-- The concrete deletion run for the C7 witness. -/
def tRes : TState :=
  match delItem tSt 0 with
  | .ok s => s
  | .error _ => tSt

theorem tRes_eq : delItem tSt 0 = .ok tRes := rfl

/-- Witness for C7 on the concrete one-element container: the child-link
and parent-link sets each lose exactly the one entry and the container
empties. -/
theorem C7_delitem_bookkeeping_witness :
    tRes.childLinks = [] ∧ tRes.tgtParent 0 = [] ∧
    tRes.childLinks.length + 1 = tSt.childLinks.length ∧
    (tRes.tgtParent 0).length + 1 = (tSt.tgtParent 0).length ∧
    tRes.container = [] := by
  obtain ⟨h1, h2, h3, h4, h5, h6⟩ := C7_delitem_bookkeeping tSt 0 ⟨100, 101, 5⟩ 0
    tRes rfl rfl rfl tRes_eq
  exact ⟨by rw [h1]; rfl, by rw [h2]; rfl, h3, h4, by rw [h5]; rfl⟩

/-- Witness for C10 on a freshly deserialized wrapper (empty cache): the
scalar-container path raises `KeyError` at once, and the composite path
(one Link element, hashes 100/101, container hash 200) raises `KeyError`
after its element loop. -/
theorem C10_clearfield_keyerror_witness :
    clearFieldRepeatedScalar tSt 300 = .error .keyErr ∧
    clearFieldRepeatedComposite
      { tSt with dw := fun _ => false } 200 [⟨100, 101, 5⟩] =
      .error .keyErr := by
  obtain ⟨h1, h2⟩ := C10_clearfield_keyerror tSt 300 [] rfl (by
    intro it hit
    cases hit)
  have hni : ∀ it ∈ [(⟨100, 101, 5⟩ : Item)],
      it.hash ≠ 200 ∧ it.typeHash ≠ 200 := by
    intro it hit
    rcases List.mem_cons.mp hit with h | h
    · subst h
      exact ⟨by decide, by decide⟩
    · cases h
  obtain ⟨h3, h4⟩ := C10_clearfield_keyerror
    { tSt with dw := fun _ => false } 200 [⟨100, 101, 5⟩] rfl hni
  refine ⟨h1, ?_⟩
  apply h4
  rfl

end TreeModel
